import Mathlib

/-!
Verification development for the n8n ScrapeNinja node package
(crawler scheduler/queue engine and HTML reduction engine).

The definitions below are shallow embeddings of the TypeScript source:

* `Url` — a model of the WHATWG `URL` class (the external runtime
  collaborator used by `normalizeUrl` in the concurrent crawler module),
  restricted to the special schemes `http`/`https`, without userinfo,
  IPv6 hosts, percent-encoding or dot-segment normalization.
* `normalizeUrl` — the URL normalizer from the crawler module.
* `Minimatch` — a model of the `minimatch` glob matcher for the pattern
  features the node uses (`*`, `?`, a standalone `**` path portion);
  brace expansion, extglobs, negation and the leading-dot rule are outside
  the modeled fragment.
* `CrawlerExecute` — the sequential `processCrawlerQueue` worker loop of
  `CrawlerExecute.ts` together with the queue/run state it mutates.  The
  database tables are modeled as an explicit state record; each SQL
  statement of the source becomes one state-transforming function.
* `Reducer` — the HTML reduction pipeline of the standalone reducer
  module (`processHtml`) over an explicit DOM tree, together with the
  Emmet-style structural outline generator.

Strings are handled through their underlying character lists so that the
splitting/serialization lemmas can be proved by structural induction.
-/

/-! ## List-of-characters helpers -/
/-- Split a list at the first occurrence of `sep`: returns the part before
the separator and, when the separator occurs, the part after it. -/
def splitFirst (sep : Char) : List Char → List Char × Option (List Char)
  | [] => ([], none)
  | c :: cs =>
    if c = sep then ([], some cs)
    else
      let r := splitFirst sep cs
      (c :: r.1, r.2)

/-- Split a list into the segments delimited by `sep`, as
`String.prototype.split` does: `n` separators yield `n + 1` segments. -/
def splitAll (sep : Char) : List Char → List (List Char)
  | [] => [[]]
  | c :: cs =>
    if c = sep then [] :: splitAll sep cs
    else
      match splitAll sep cs with
      | [] => [[c]]
      | seg :: rest => (c :: seg) :: rest

/-- Interleave the separator between segments (inverse of `splitAll`). -/
def joinSep (sep : Char) : List (List Char) → List Char
  | [] => []
  | [s] => s
  | s :: rest => s ++ sep :: joinSep sep rest

/-- Characters accepted in the model's host component: ASCII letters,
digits, `-`, `.` and `_`. -/
def isHostChar (c : Char) : Bool :=
  (97 ≤ c.toNat && c.toNat ≤ 122) || (65 ≤ c.toNat && c.toNat ≤ 90) ||
    (48 ≤ c.toNat && c.toNat ≤ 57) || c = '-' || c = '.' || c = '_'

/-- Host characters as the parser outputs them (uppercase letters ruled out). -/
def isLowerHostChar (c : Char) : Bool :=
  (97 ≤ c.toNat && c.toNat ≤ 122) ||
    (48 ≤ c.toNat && c.toNat ≤ 57) || c = '-' || c = '.' || c = '_'

/-- Decimal digit test (character code 48–57). -/
def isDigitChar (c : Char) : Bool := 48 ≤ c.toNat && c.toNat ≤ 57

/-- Numeric value of a decimal-digit string, most significant digit first. -/
def digitsToNat (l : List Char) : Nat := l.foldl (fun a c => a * 10 + (c.toNat - 48)) 0

/-- Canonical decimal representation, fuel-based so that it reduces in the
kernel (the fuel is always sufficient since a number needs at most as many
digits as its value). -/
def natToDigitsAux : Nat → Nat → List Char
  | 0, n => [Char.ofNat (48 + n % 10)]
  | fuel + 1, n =>
    if n < 10 then [Char.ofNat (48 + n)]
    else natToDigitsAux fuel (n / 10) ++ [Char.ofNat (48 + n % 10)]

/-- Canonical decimal representation of a natural number. -/
def natToDigits (n : Nat) : List Char := natToDigitsAux n n

namespace Url

/-! ## Model of the WHATWG URL class (external collaborator of `normalizeUrl`)

The crawler's `normalizeUrl` manipulates a parsed `URL` object.  The model
below captures the WHATWG basic URL parser for absolute `http`/`https`
URLs written as `scheme "://" host [":" port] ["/" path] ["?" query]
["#" fragment]`, with these WHATWG behaviours that matter to the claims:

* the parser lowercases the host and rejects forbidden host characters;
* a default port (`80` for http, `443` for https) is dropped at parse
  time, so a parsed record never carries its scheme's default port;
* a special-scheme URL always has a non-empty path list: an absent path
  parses as the single empty segment (serialized `"/"`), and assigning an
  empty pathname re-appends the empty segment, so the root slash cannot be
  removed through the `pathname` setter;
* setting `hash` to the empty string sets the fragment to null.

Out of modeled scope (parse failure in the model): userinfo, IPv6 hosts,
non-ASCII/IDNA hosts, percent-encoding, dot-segment collapsing, uppercase
scheme spellings, and whitespace stripping. -/
/-- Parsed URL record (WHATWG "URL record" restricted to http/https). -/
structure UrlRecord where
  scheme : List Char
  host : List Char
  port : Option Nat
  path : List (List Char)
  query : Option (List Char)
  fragment : Option (List Char)
deriving DecidableEq, Repr

/-- Default port of a special scheme (WHATWG: 80 for http, 443 for https). -/
def defaultPort (scheme : List Char) : Nat :=
  if scheme = "https".data then 443 else 80

/-- Everything before the first `#` and the optional fragment after it. -/
def splitFrag (rest : List Char) : List Char × Option (List Char) :=
  splitFirst '#' rest

/-- Everything before the first `?` (fragment already removed) and the
optional query after it. -/
def splitQuery (rest : List Char) : List Char × Option (List Char) :=
  splitFirst '?' (splitFrag rest).1

/-- The authority and the optional path text after the first `/`. -/
def splitPath (rest : List Char) : List Char × Option (List Char) :=
  splitFirst '/' (splitQuery rest).1

/-- The raw host and the optional port text after the first `:`. -/
def splitHost (rest : List Char) : List Char × Option (List Char) :=
  splitFirst ':' (splitPath rest).1

/-- Path segments: an absent path is the single empty segment (WHATWG
appends an empty segment for a special scheme). -/
def pathOf (rest : List Char) : List (List Char) :=
  match (splitPath rest).2 with
  | none => [[]]
  | some p => splitAll '/' p

/-- Port parsing: non-digits fail, an empty port is dropped, ports above
65535 fail, a scheme-default port is dropped (WHATWG port state). -/
def parsePort (scheme : List Char) : Option (List Char) → Option (Option Nat)
  | none => some none
  | some pc =>
    if pc.all isDigitChar then
      if pc = [] then some none
      else if 65535 < digitsToNat pc then none
      else if digitsToNat pc = defaultPort scheme then some none
      else some (some (digitsToNat pc))
    else none

/-- Parse the remainder of a URL after `scheme://`. -/
def parseAfterScheme (scheme : List Char) (rest : List Char) : Option UrlRecord :=
  if (splitHost rest).1 = [] then none
  else if (splitHost rest).1.all isHostChar then
    match parsePort scheme (splitHost rest).2 with
    | none => none
    | some port =>
      some { scheme := scheme
             host := (splitHost rest).1.map Char.toLower
             port := port
             path := pathOf rest
             query := (splitQuery rest).2
             fragment := (splitFrag rest).2 }
  else none

/-- Parse an absolute http/https URL; `none` models a thrown `TypeError`. -/
def parse (l : List Char) : Option UrlRecord :=
  match l with
  | 'h' :: 't' :: 't' :: 'p' :: 's' :: ':' :: '/' :: '/' :: rest =>
    parseAfterScheme "https".data rest
  | 'h' :: 't' :: 't' :: 'p' :: ':' :: '/' :: '/' :: rest =>
    parseAfterScheme "http".data rest
  | _ => none

/-- Serialized path: each segment prefixed with `/`. -/
def pathChars (path : List (List Char)) : List Char :=
  (path.map (fun seg => '/' :: seg)).flatten

/-- Serialized port (empty when the port is null). -/
def portChars : Option Nat → List Char
  | none => []
  | some n => ':' :: natToDigits n

/-- Serialized query (empty when the query is null). -/
def queryChars : Option (List Char) → List Char
  | none => []
  | some q => '?' :: q

/-- Serialized fragment (empty when the fragment is null). -/
def fragChars : Option (List Char) → List Char
  | none => []
  | some f => '#' :: f

/-- WHATWG URL serializer for the modeled fragment (`URL.toString`). -/
def serialize (r : UrlRecord) : List Char :=
  r.scheme ++ ':' :: '/' :: '/' ::
    (r.host ++ portChars r.port ++ pathChars r.path ++
      queryChars r.query ++ fragChars r.fragment)

/-- Invariant satisfied by every record the parser produces. -/
structure Valid (r : UrlRecord) : Prop where
  scheme_ok : r.scheme = "http".data ∨ r.scheme = "https".data
  host_ne : r.host ≠ []
  host_chars : ∀ c ∈ r.host, isLowerHostChar c = true
  port_ok : ∀ n, r.port = some n → n ≤ 65535 ∧ n ≠ defaultPort r.scheme
  path_ne : r.path ≠ []
  path_chars : ∀ seg ∈ r.path, '/' ∉ seg ∧ '?' ∉ seg ∧ '#' ∉ seg
  query_ok : ∀ q, r.query = some q → '#' ∉ q

/-- Model of `parsed.hash = ''`: WHATWG sets the fragment to null when the
hash setter receives the empty string. -/
def setHashEmpty (r : UrlRecord) : UrlRecord := { r with fragment := none }

/-- The `pathname` getter: serialization of the path. -/
def pathname (r : UrlRecord) : List Char := pathChars r.path

/-- Model of `parsed.pathname = ''` on a special-scheme URL: the WHATWG
basic URL parser runs with path-start state override on empty input, and
for a special scheme it falls through to the path state at EOF and appends
the empty segment — the path becomes `[""]` (serialized `"/"`), never
empty. -/
def setPathnameEmpty (r : UrlRecord) : UrlRecord := { r with path := [[]] }

/-- The `if (parsed.pathname === '/') parsed.pathname = ''` step of
`normalizeUrl`. -/
def dropRootSlash (r : UrlRecord) : UrlRecord :=
  if pathname r = ['/'] then setPathnameEmpty r else r

/-- The default-port stripping step of `normalizeUrl` (`parsed.port = ''`
when the scheme/port pair is http/80 or https/443). -/
def stripDefaultPort (r : UrlRecord) : UrlRecord :=
  if (r.scheme = "http".data ∧ r.port = some 80) ∨
      (r.scheme = "https".data ∧ r.port = some 443) then
    { r with port := none }
  else r

/-- The `parsed.hostname = parsed.hostname.toLowerCase()` step. -/
def lowerHost (r : UrlRecord) : UrlRecord :=
  { r with host := r.host.map Char.toLower }

/-- The record-level body of `normalizeUrl`, steps in source order. -/
def normalizeRecord (r : UrlRecord) : UrlRecord :=
  lowerHost (stripDefaultPort (dropRootSlash (setHashEmpty r)))

end Url

/-- Embedding of `normalizeUrl` (crawler module): parse the URL, clear the
fragment, attempt to drop a root-only path, drop a default port, lowercase
the hostname, and serialize; parse failure returns the input unchanged. -/
def normalizeUrl (url : String) : String :=
  match Url.parse url.data with
  | none => url
  | some parsed => String.mk (Url.serialize (Url.normalizeRecord parsed))

namespace Minimatch

/-! ## Model of the `minimatch` glob matcher

The node filters URLs through `minimatch(url, pattern)`.  minimatch splits
both pattern and input on `/`; a portion that is exactly `**` (a
"globstar") matches any number of portions, while `*` and `?` inside a
portion match only within that portion (`[^/]*?` and `[^/]` in the
generated regular expression) — in particular a portion such as `**.pdf`
is NOT a globstar and can only match a single slash-free portion.  Brace
expansion, extglobs, character classes, negation and the leading-dot rule
are outside the modeled fragment (the claims use none of them).  Matching
is defined fuel-based so it reduces in the kernel; the fuel is always
sufficient because every recursive call shrinks pattern-length plus
input-length. -/
/-- Glob match of one pattern portion against one path portion. -/
def segMatchAux : Nat → List Char → List Char → Bool
  | 0, _, _ => false
  | fuel + 1, p, s =>
    match p with
    | [] => s.isEmpty
    | pc :: ps =>
      if pc = '*' then
        segMatchAux fuel ps s ||
          (match s with
           | [] => false
           | _ :: s2 => segMatchAux fuel (pc :: ps) s2)
      else
        match s with
        | [] => false
        | c :: s2 => (if pc = '?' then true else pc = c) && segMatchAux fuel ps s2

/-- Glob match of one pattern portion with always-sufficient fuel. -/
def segMatch (p s : List Char) : Bool :=
  segMatchAux (p.length + s.length + 1) p s

/-- Portion-wise match: a `**` portion spans any number of path portions,
any other portion must glob-match exactly one path portion. -/
def matchOneAux : Nat → List (List Char) → List (List Char) → Bool
  | 0, _, _ => false
  | fuel + 1, ps, fs =>
    match ps with
    | [] => fs.isEmpty
    | p :: ps2 =>
      if p = ['*', '*'] then
        matchOneAux fuel ps2 fs ||
          (match fs with
           | [] => false
           | _ :: fs2 => matchOneAux fuel (p :: ps2) fs2)
      else
        match fs with
        | [] => false
        | f :: fs2 => segMatch p f && matchOneAux fuel ps2 fs2

/-- `minimatch(p, pattern)`: split both on `/` and match portion-wise. -/
def minimatch (p pattern : String) : Bool :=
  matchOneAux ((splitAll '/' pattern.data).length +
      (splitAll '/' p.data).length + 1)
    (splitAll '/' pattern.data) (splitAll '/' p.data)

end Minimatch

namespace CrawlerExecute

/-! ## URL filtering (`shouldProcessUrl`) -/
/-- Embedding of `shouldProcessUrl` from `CrawlerExecute.ts`: with no
include patterns every URL is default-included; any matching exclude
pattern rejects, taking precedence over includes.  The full URL string is
matched (no scheme stripping in this version). -/
def shouldProcessUrl (url : String)
    (includePatterns excludePatterns : List String) : Bool :=
  let shouldInclude := includePatterns.isEmpty ||
    includePatterns.any (fun pat => Minimatch.minimatch url pat)
  if excludePatterns.any (fun pat => Minimatch.minimatch url pat) then false
  else shouldInclude

end CrawlerExecute

namespace CrawlerConcurrent

/-- Embedding of `url.replace(/^https?:\/\//, '')`: strip one leading
`http://` or `https://`. -/
def stripScheme (s : String) : String :=
  match s.data with
  | 'h' :: 't' :: 't' :: 'p' :: 's' :: ':' :: '/' :: '/' :: rest =>
    String.mk rest
  | 'h' :: 't' :: 't' :: 'p' :: ':' :: '/' :: '/' :: rest => String.mk rest
  | _ => s

/-- Embedding of `shouldProcessUrl` from the concurrent crawler module:
identical to the sequential version except that the scheme is stripped
from both the URL and each pattern before matching. -/
def shouldProcessUrl (url : String)
    (includePatterns excludePatterns : List String) : Bool :=
  let urlForMatching := stripScheme url
  let shouldInclude := includePatterns.isEmpty ||
    includePatterns.any
      (fun pat => Minimatch.minimatch urlForMatching (stripScheme pat))
  if excludePatterns.any
      (fun pat => Minimatch.minimatch urlForMatching (stripScheme pat)) then
    false
  else shouldInclude

end CrawlerConcurrent

namespace CrawlerExecute

/-! ## Crawler queue engine (`processCrawlerQueue`, `CrawlerExecute.ts`)

The crawler mutates two Postgres tables; the model folds them into one
state record (`runStatus` for the `crawler_runs` row, `items` for the
`crawler_queue` rows of the run).  Each SQL statement of the source
becomes one state-transforming function; log writes and reads of the
response/stats columns do not change the modeled state and are omitted.
Link extraction and the hostname/protocol checks happen inside the page
fetch abstraction: a `FetchOutcome.success links` carries the already
resolved candidate URLs, which the loop then filters with
`shouldProcessUrl` exactly as the source does.  The worker loop takes a
fuel bound so that it reduces in the kernel; the concrete scenarios use
ample fuel. -/
inductive RunStatus where
  | pending
  | running
  | paused
  | completed
  | failed
  | canceled
deriving DecidableEq, Repr

inductive ItemStatus where
  | pending
  | processing
  | completed
  | failed
  | canceled
deriving DecidableEq, Repr

/-- One `crawler_queue` row. -/
structure QueueItem where
  id : Nat
  url : String
  status : ItemStatus
  parentUrl : Option String
  depth : Nat
  createdAt : Nat
  error : Option String
deriving DecidableEq, Repr

/-- The run row plus its queue rows; `nextId` models the id sequence and
`now` the transaction timestamp used for `created_at`. -/
structure CrawlState where
  runStatus : RunStatus
  items : List QueueItem
  nextId : Nat
  now : Nat
deriving DecidableEq, Repr

/-- The row selected by the claim query: a pending item minimizing
(depth, created_at), earlier row winning ties. -/
def claimCandidate (s : CrawlState) : Option QueueItem :=
  (s.items.filter (fun i => i.status = ItemStatus.pending)).foldl
    (fun best i =>
      match best with
      | none => some i
      | some b =>
        if i.depth < b.depth ∨ (i.depth = b.depth ∧ i.createdAt < b.createdAt)
        then some i else some b)
    none

/-- UPDATE crawler_queue SET status = $st WHERE id = $iid. -/
def setItemStatus (s : CrawlState) (iid : Nat) (st : ItemStatus) : CrawlState :=
  { s with items := (s.items.map
      (fun i => if i.id = iid then { i with status := st } else i)) }

/-- The claim transaction's write: selected item becomes `processing`. -/
def markProcessing (s : CrawlState) (iid : Nat) : CrawlState :=
  setItemStatus s iid ItemStatus.processing

/-- UPDATE crawler_queue SET status = 'completed' WHERE id = $iid. -/
def markCompleted (s : CrawlState) (iid : Nat) : CrawlState :=
  setItemStatus s iid ItemStatus.completed

/-- UPDATE crawler_queue SET status = 'failed', error = $msg WHERE id. -/
def markFailed (s : CrawlState) (iid : Nat) (msg : String) : CrawlState :=
  { s with items := (s.items.map
      (fun i => if i.id = iid then
        { i with status := ItemStatus.failed, error := some msg } else i)) }

/-- UPDATE crawler_runs SET status = $st WHERE id = $runId (the source
statement carries no guard on the current status). -/
def setRunStatus (s : CrawlState) (st : RunStatus) : CrawlState :=
  { s with runStatus := st }

/-- Embedding of `cancelRemainingItems`: every pending/processing item
becomes canceled with the reason as its error, and the run row is set to
'canceled' — unconditionally. -/
def cancelRemainingItems (s : CrawlState) (reason : String) : CrawlState :=
  { s with
    items := (s.items.map (fun i =>
      if i.status = ItemStatus.pending ∨ i.status = ItemStatus.processing
      then { i with status := ItemStatus.canceled, error := some reason }
      else i)),
    runStatus := RunStatus.canceled }

/-- SELECT COUNT(*) ... WHERE status = 'failed'. -/
def failedCount (s : CrawlState) : Nat :=
  (s.items.filter (fun i => i.status = ItemStatus.failed)).length

/-- SELECT COUNT(*) ... WHERE status IN ('pending', 'processing'). -/
def pendingProcessingCount (s : CrawlState) : Nat :=
  (s.items.filter (fun i =>
    i.status = ItemStatus.pending ∨ i.status = ItemStatus.processing)).length

/-- The link-enqueue transaction: insert each link not already present for
the run as a pending item at the parent's depth + 1; all rows of the batch
share the transaction timestamp. -/
def enqueueLinks (s : CrawlState) (parent : QueueItem)
    (links : List String) : CrawlState :=
  let s2 := links.foldl
    (fun st link =>
      if st.items.any (fun i => i.url = link) then st
      else
        let newItem : QueueItem :=
          { id := st.nextId, url := link, status := ItemStatus.pending,
            parentUrl := some parent.url, depth := parent.depth + 1,
            createdAt := st.now, error := none }
        { st with
          items := (st.items ++ [newItem]),
          nextId := st.nextId + 1 })
    s
  { s2 with now := s2.now + 1 }

/-- Result of one page fetch through the ScrapeNinja adapter: a body whose
link extraction yields `links`, or a thrown request error. -/
inductive FetchOutcome where
  | success (links : List String)
  | failure (msg : String)

/-- How one iteration of the worker loop ends. -/
inductive LoopExit where
  | continueLoop
  | breakLoop
  | throwErr (msg : String)
deriving DecidableEq, Repr

/-- One iteration of the while-loop body of `processCrawlerQueue`: claim
the next pending item (marking the run completed and breaking when none
is left), re-check that the run is still running, fetch, and either
enqueue the filtered links / mark completed / stop at the page limit, or
mark the item failed and — above 10 failed items — set the run failed,
cancel the remaining items and throw. -/
def loopIter (fetch : String → FetchOutcome) (maxDepth maxPages : Nat)
    (includePatterns excludePatterns : List String)
    (processedPages : Nat) (s : CrawlState) :
    CrawlState × Nat × LoopExit :=
  match claimCandidate s with
  | none =>
    (setRunStatus s RunStatus.completed, processedPages, LoopExit.breakLoop)
  | some item =>
    let s1 := markProcessing s item.id
    if s1.runStatus ≠ RunStatus.running then
      (s1, processedPages, LoopExit.breakLoop)
    else
      match fetch item.url with
      | FetchOutcome.success links =>
        let kept := links.filter
          (fun l => shouldProcessUrl l includePatterns excludePatterns)
        let s2 := if item.depth < maxDepth then enqueueLinks s1 item kept
          else s1
        let s3 := markCompleted s2 item.id
        let pp := processedPages + 1
        if maxPages ≤ pp then
          (cancelRemainingItems s3
            ("Reached maximum pages limit (" ++ toString maxPages ++ ")"),
           pp, LoopExit.breakLoop)
        else (s3, pp, LoopExit.continueLoop)
      | FetchOutcome.failure msg =>
        let s2 := markFailed s1 item.id msg
        if 10 < failedCount s2 then
          let s3 := setRunStatus s2 RunStatus.failed
          let s4 := cancelRemainingItems s3 "Too many failed requests"
          (s4, processedPages,
           LoopExit.throwErr "Too many failed requests, stopping crawler")
        else (s2, processedPages, LoopExit.continueLoop)

/-- The while-loop of `processCrawlerQueue` (guard
`processedPages < maxPages`); returns the state and the thrown error
message, if any. -/
def loopRun (fetch : String → FetchOutcome) (maxDepth maxPages : Nat)
    (includePatterns excludePatterns : List String) :
    Nat → Nat → CrawlState → CrawlState × Option String
  | 0, _, s => (s, none)
  | fuel + 1, processedPages, s =>
    if processedPages < maxPages then
      match loopIter fetch maxDepth maxPages includePatterns excludePatterns
          processedPages s with
      | (s2, pp2, LoopExit.continueLoop) =>
        loopRun fetch maxDepth maxPages includePatterns excludePatterns
          fuel pp2 s2
      | (s2, _, LoopExit.breakLoop) => (s2, none)
      | (s2, _, LoopExit.throwErr msg) => (s2, some msg)
    else (s, none)

/-- The `finally` block of `processCrawlerQueue`: if pending or processing
items remain, cancel them (which also sets the run canceled); otherwise
set the run completed — regardless of the run's current status. -/
def finalizeRun (s : CrawlState) : CrawlState :=
  if 0 < pendingProcessingCount s then
    cancelRemainingItems s "Crawler process ended"
  else setRunStatus s RunStatus.completed

/-- Whole control flow of `processCrawlerQueue`: worker loop, the catch
block's bulk cancel with the thrown error's message, and the guaranteed
finalization that runs on every exit path. -/
def processCrawlerQueue (fetch : String → FetchOutcome)
    (maxDepth maxPages : Nat) (includePatterns excludePatterns : List String)
    (fuel : Nat) (s : CrawlState) : CrawlState :=
  let r := loopRun fetch maxDepth maxPages includePatterns excludePatterns
    fuel 0 s
  let s2 := match r.2 with
    | some msg => cancelRemainingItems r.1 msg
    | none => r.1
  finalizeRun s2

/-- A fresh pending seed-depth queue item. -/
def pendingItem (iid : Nat) (url : String) (createdAt : Nat) : QueueItem :=
  { id := iid, url := url, status := ItemStatus.pending, parentUrl := none,
    depth := 0, createdAt := createdAt, error := none }

/-- A running run whose queue holds `n` pending items. -/
def runWithPending (n : Nat) : CrawlState :=
  { runStatus := RunStatus.running,
    items := ((List.range n).map
      (fun k => pendingItem (k + 1) ("u" ++ toString (k + 1)) (k + 1))),
    nextId := n + 1,
    now := n + 1 }

end CrawlerExecute

namespace CrawlerOperations

/-- The `crawler-pause` operation (`CrawlerOperations.ts`):
UPDATE crawler_runs SET status = 'paused' WHERE id = $runId. -/
def pauseRun (s : CrawlerExecute.CrawlState) : CrawlerExecute.CrawlState :=
  CrawlerExecute.setRunStatus s CrawlerExecute.RunStatus.paused

end CrawlerOperations

namespace Reducer

/-! ## HTML reduction engine (standalone reducer module, `processHtml`)

The DOM is a mutual inductive tree (`HNode`/`HForest`).  The model covers
well-formed markup made of paired element tags with double-quoted
attributes, text and comments; entity encoding, void/self-closing
elements and parser error recovery are outside the modeled fragment, and
the document is processed as a fragment (cheerio's implicit
`<html><head><body>` wrapper is not added).  Each pipeline stage of
`processHtml` becomes one total tree transform, applied in source order.
`trimSvgs` re-parses the trimmed inner HTML just as
`$(this).html(trimText(...))` does, and processes outermost `svg`
elements (cheerio's snapshot selection discards mutations of nested
matches).  All recursion is structural or fuel-based so that the
pipeline evaluates inside the kernel. -/
mutual
inductive HNode where
  | element (tag : String) (attrs : List (String × String)) (children : HForest)
  | text (data : String)
  | comment (data : String)
inductive HForest where
  | nil
  | cons (head : HNode) (tail : HForest)
end

/-- The JavaScript `\s` class (the code points the claims can meet). -/
def isJsWs (c : Char) : Bool :=
  c = ' ' || c = '\t' || c = '\n' || c = '\r' ||
    c.toNat = 11 || c.toNat = 12 || c.toNat = 160

/-- Worker for `String.replace(/\s{2,}/g, ' ')`: the flag says whether we
are inside a whitespace run already replaced by a single space. -/
def collapseWsAux : Bool → List Char → List Char
  | _, [] => []
  | true, c :: cs =>
    if isJsWs c then collapseWsAux true cs else c :: collapseWsAux false cs
  | false, [c] => [c]
  | false, c :: c2 :: cs2 =>
    if isJsWs c then
      if isJsWs c2 then ' ' :: collapseWsAux true cs2
      else c :: collapseWsAux false (c2 :: cs2)
    else c :: collapseWsAux false (c2 :: cs2)

/-- `text.replace(/\s{2,}/g, ' ')`: every run of 2 or more whitespace
characters becomes one space; lone whitespace characters are kept. -/
def collapseWs (l : List Char) : List Char := collapseWsAux false l

/-- Worker for `String.replace(/\s+/g, ' ')` (used on attribute values in
the outline generator): every run of 1 or more whitespace characters
becomes one space. -/
def collapsePlusAux : Bool → List Char → List Char
  | _, [] => []
  | true, c :: cs =>
    if isJsWs c then collapsePlusAux true cs else c :: collapsePlusAux false cs
  | false, c :: cs =>
    if isJsWs c then ' ' :: collapsePlusAux true cs
    else c :: collapsePlusAux false cs

/-- `value.replace(/\s+/g, ' ')`. -/
def collapsePlus (l : List Char) : List Char := collapsePlusAux false l

/-- `String.prototype.trim`. -/
def trimJsWs (l : List Char) : List Char :=
  ((l.dropWhile isJsWs).reverse.dropWhile isJsWs).reverse

/-- `trimText` of the reducer: text longer than 100 characters becomes its
first 100 characters, an ellipsis, and the count of removed characters. -/
def trimText (text : String) : String :=
  if 100 < text.length then
    String.mk (text.data.take 100) ++ "… [" ++
      toString (text.length - 100) ++ " chars more]"
  else text

/-- `trimUrl`: values longer than the allowance are cut and suffixed with
a bare ellipsis. -/
def trimUrl (url : String) (maxLength : Nat) : String :=
  if maxLength < url.length then String.mk (url.data.take maxLength) ++ "…"
  else url

/-- `isImportantAttr`: `['class', 'id'].includes(attrName)`. -/
def isImportantAttr (attrName : String) : Bool :=
  attrName = "class" || attrName = "id"

/-- The four inline-handler attributes removed by `removeInlineJs`. -/
def isHandlerAttr (attrName : String) : Bool :=
  attrName = "onclick" || attrName = "onmouseover" ||
    attrName = "onchange" || attrName = "onload"

/-- The presentational attributes stripped globally (verbatim from the
source, duplicates included). -/
def omitAttrs : List String :=
  ["height", "width", "colspan", "valign", "align", "style", "cellspacing",
   "color", "bgcolor", "border", "cellpadding", "bordercolor", "border",
   "bordercolor"]

/-- Serialized attribute list (` name="value"` per attribute). -/
def serializeAttrs (attrs : List (String × String)) : String :=
  (attrs.map (fun p => " " ++ p.1 ++ "=\"" ++ p.2 ++ "\"")).foldl
    (fun a b => a ++ b) ""

mutual
/-- Serialization of one node (`$.html()` for the modeled fragment). -/
def serializeN : HNode → String
  | .element tag attrs ch =>
    "<" ++ tag ++ serializeAttrs attrs ++ ">" ++ serializeF ch ++
      "</" ++ tag ++ ">"
  | .text s => s
  | .comment c => "<!--" ++ c ++ "-->"
/-- Serialization of a forest. -/
def serializeF : HForest → String
  | .nil => ""
  | .cons n rest => serializeN n ++ serializeF rest
end

/-- Tag-name characters of the modeled parser. -/
def isTagChar (c : Char) : Bool :=
  (97 ≤ c.toNat && c.toNat ≤ 122) || (65 ≤ c.toNat && c.toNat ≤ 90) ||
    (48 ≤ c.toNat && c.toNat ≤ 57)

/-- Scan a comment body up to the closing `-->`. -/
def splitComment : List Char → List Char × List Char
  | [] => ([], [])
  | '-' :: '-' :: '>' :: rest => ([], rest)
  | c :: cs =>
    let r := splitComment cs
    (c :: r.1, r.2)

/-- Attribute-name characters of the modeled parser. -/
def isAttrNameChar (c : Char) : Bool :=
  !(isJsWs c) && !(c == '=') && !(c == '>') && !(c == '/')

/-- Parse the attribute list of an open tag (fuel-based). -/
def parseAttrsAux : Nat → List Char → List (String × String) × List Char
  | 0, l => ([], l)
  | fuel + 1, l =>
    let l1 := l.dropWhile isJsWs
    match l1 with
    | [] => ([], [])
    | '>' :: rest => ([], '>' :: rest)
    | '/' :: rest => ([], '/' :: rest)
    | _ =>
      let name := l1.takeWhile isAttrNameChar
      let l2 := l1.dropWhile isAttrNameChar
      match l2 with
      | '=' :: '"' :: rest2 =>
        let v := rest2.takeWhile (fun c => !(c == '"'))
        let l3 := (rest2.dropWhile (fun c => !(c == '"'))).drop 1
        let r := parseAttrsAux fuel l3
        ((String.mk name, String.mk v) :: r.1, r.2)
      | _ =>
        let r := parseAttrsAux fuel l2
        ((String.mk name, "") :: r.1, r.2)

/-- Recursive-descent parse of the modeled markup fragment (fuel-based);
returns the parsed forest and the input remaining after a close tag. -/
def parseNodesAux : Nat → List Char → HForest × List Char
  | 0, l => (HForest.nil, l)
  | fuel + 1, l =>
    match l with
    | [] => (HForest.nil, [])
    | '<' :: '!' :: '-' :: '-' :: rest =>
      let c := splitComment rest
      let r := parseNodesAux fuel c.2
      (HForest.cons (HNode.comment (String.mk c.1)) r.1, r.2)
    | '<' :: '/' :: rest =>
      (HForest.nil, (rest.dropWhile (fun c => !(c == '>'))).drop 1)
    | '<' :: rest =>
      let tag := rest.takeWhile isTagChar
      let afterTag := rest.dropWhile isTagChar
      let ar := parseAttrsAux afterTag.length afterTag
      let body := (ar.2.dropWhile (fun c => !(c == '>'))).drop 1
      let ch := parseNodesAux fuel body
      let r := parseNodesAux fuel ch.2
      (HForest.cons (HNode.element (String.mk tag) ar.1 ch.1) r.1, r.2)
    | c :: cs =>
      let t := (c :: cs).takeWhile (fun c2 => !(c2 == '<'))
      let rest2 := (c :: cs).dropWhile (fun c2 => !(c2 == '<'))
      let r := parseNodesAux fuel rest2
      (HForest.cons (HNode.text (String.mk t)) r.1, r.2)

/-- `cheerio.load` for the modeled fragment. -/
def parseHtml (s : String) : HForest := (parseNodesAux s.data.length s.data).1

/-- Stage 1: `$('style, script').remove()`. -/
def removeStyleScriptF : HForest → HForest
  | .nil => .nil
  | .cons (.element t a ch) rest =>
    if t = "style" ∨ t = "script" then removeStyleScriptF rest
    else .cons (.element t a (removeStyleScriptF ch)) (removeStyleScriptF rest)
  | .cons (.text s) rest => .cons (.text s) (removeStyleScriptF rest)
  | .cons (.comment c) rest => .cons (.comment c) (removeStyleScriptF rest)

/-- Stage 2: `removeInlineJs` — drop the four handler attributes. -/
def removeInlineJsF : HForest → HForest
  | .nil => .nil
  | .cons (.element t a ch) rest =>
    .cons (.element t (a.filter (fun p => !(isHandlerAttr p.1)))
      (removeInlineJsF ch)) (removeInlineJsF rest)
  | .cons (.text s) rest => .cons (.text s) (removeInlineJsF rest)
  | .cons (.comment c) rest => .cons (.comment c) (removeInlineJsF rest)

/-- Stage 3: `trimSvgs` — each outermost `svg` gets its inner HTML
serialized, trimmed with `trimText`, and re-parsed. -/
def trimSvgsF : HForest → HForest
  | .nil => .nil
  | .cons (.element t a ch) rest =>
    if t = "svg" then
      .cons (.element t a (parseHtml (trimText (serializeF ch))))
        (trimSvgsF rest)
    else .cons (.element t a (trimSvgsF ch)) (trimSvgsF rest)
  | .cons (.text s) rest => .cons (.text s) (trimSvgsF rest)
  | .cons (.comment c) rest => .cons (.comment c) (trimSvgsF rest)

/-- Stage 4: `trimWhitespace` — collapse 2+ whitespace runs in every text
node. -/
def trimWhitespaceF : HForest → HForest
  | .nil => .nil
  | .cons (.element t a ch) rest =>
    .cons (.element t a (trimWhitespaceF ch)) (trimWhitespaceF rest)
  | .cons (.text s) rest =>
    .cons (.text (String.mk (collapseWs s.data))) (trimWhitespaceF rest)
  | .cons (.comment c) rest => .cons (.comment c) (trimWhitespaceF rest)

/-- Stage 5: trim `href` of every anchor to at most 30 characters plus an
ellipsis. -/
def trimHrefsF : HForest → HForest
  | .nil => .nil
  | .cons (.element t a ch) rest =>
    let a2 := if t = "a" then
        a.map (fun p =>
          if p.1 == "href" && 30 < p.2.length then
            (p.1, String.mk (p.2.data.take 30) ++ "…")
          else p)
      else a
    .cons (.element t a2 (trimHrefsF ch)) (trimHrefsF rest)
  | .cons (.text s) rest => .cons (.text s) (trimHrefsF rest)
  | .cons (.comment c) rest => .cons (.comment c) (trimHrefsF rest)

/-- Stage 6: `$('*').removeAttr(omitAttrs.join(' '))`. -/
def removeOmitAttrsF : HForest → HForest
  | .nil => .nil
  | .cons (.element t a ch) rest =>
    .cons (.element t (a.filter (fun p => !(omitAttrs.contains p.1)))
      (removeOmitAttrsF ch)) (removeOmitAttrsF rest)
  | .cons (.text s) rest => .cons (.text s) (removeOmitAttrsF rest)
  | .cons (.comment c) rest => .cons (.comment c) (removeOmitAttrsF rest)

/-- Stage 7: `trimHtmlComments` — comments longer than 30 characters are
cut to 30 plus an ellipsis. -/
def trimCommentsF : HForest → HForest
  | .nil => .nil
  | .cons (.element t a ch) rest =>
    .cons (.element t a (trimCommentsF ch)) (trimCommentsF rest)
  | .cons (.text s) rest => .cons (.text s) (trimCommentsF rest)
  | .cons (.comment c) rest =>
    let c2 := if 30 < c.length then String.mk (c.data.take 30) ++ "…" else c
    .cons (.comment c2) (trimCommentsF rest)

/-- Stage 8: `trimAttrs` — every attribute value is trimmed, important
attributes (`class`, `id`) to 70 characters, all others to 30. -/
def trimAttrsF : HForest → HForest
  | .nil => .nil
  | .cons (.element t a ch) rest =>
    .cons (.element t
      (a.map (fun p =>
        if isImportantAttr p.1 then (p.1, trimUrl p.2 70)
        else (p.1, trimUrl p.2 30)))
      (trimAttrsF ch)) (trimAttrsF rest)
  | .cons (.text s) rest => .cons (.text s) (trimAttrsF rest)
  | .cons (.comment c) rest => .cons (.comment c) (trimAttrsF rest)

/-- Stage 9: trim every text node with `trimText`. -/
def trimTextNodesF : HForest → HForest
  | .nil => .nil
  | .cons (.element t a ch) rest =>
    .cons (.element t a (trimTextNodesF ch)) (trimTextNodesF rest)
  | .cons (.text s) rest => .cons (.text (trimText s)) (trimTextNodesF rest)
  | .cons (.comment c) rest => .cons (.comment c) (trimTextNodesF rest)

/-- The `processHtml` pipeline on a parsed DOM, stages in source order
(the optional selector pre-step is absent). -/
def processHtmlDom (d : HForest) : HForest :=
  trimTextNodesF (trimAttrsF (trimCommentsF (removeOmitAttrsF (trimHrefsF
    (trimWhitespaceF (trimSvgsF (removeInlineJsF (removeStyleScriptF d))))))))

/-- The `html` output of `processHtml` on an HTML string. -/
def reduceHtml (s : String) : String := serializeF (processHtmlDom (parseHtml s))

/-- The text nodes of a forest, in document order. -/
def textNodesF : HForest → List String
  | .nil => []
  | .cons (.element _ _ ch) rest => textNodesF ch ++ textNodesF rest
  | .cons (.text s) rest => s :: textNodesF rest
  | .cons (.comment _) rest => textNodesF rest

/-- `cleanAttributeValue`: collapse all whitespace runs to single spaces
and trim. -/
def cleanAttributeValue (value : String) : String :=
  String.mk (trimJsWs (collapsePlus value.data))

/-- `['class', 'src', 'data-'].indexOf(name)` from the outline
generator's attribute prioritization. -/
def prioritizedIdx (name : String) : Int :=
  if name = "class" then 0
  else if name = "src" then 1
  else if name = "data-" then 2
  else -1

/-- Stable insertion used to model `Array.prototype.sort` with the
comparator `(a, b) => prioritizedAttrs.indexOf(b) -
prioritizedAttrs.indexOf(a)`: the result of the ES2019 stable sort with a
consistent comparator is the unique stably descending-by-index order, which
insertion after all not-smaller keys produces. -/
def insertByIdx (x : String × String) :
    List (String × String) → List (String × String)
  | [] => [x]
  | y :: ys =>
    if prioritizedIdx y.1 < prioritizedIdx x.1 then x :: y :: ys
    else y :: insertByIdx x ys

/-- `attrKeys.sort((a, b) => prioritizedAttrs.indexOf(b) -
prioritizedAttrs.indexOf(a))`. -/
def sortAttrKeys (l : List (String × String)) : List (String × String) :=
  l.foldl (fun acc x => insertByIdx x acc) []

/-- The attribute part of one element's outline entry: the first 4
attributes in comparator order, each as `[name="cleaned value"]`. -/
def emmetAttrsPart (attrs : List (String × String)) : String :=
  ((sortAttrKeys attrs).take 4).foldl
    (fun acc p => acc ++ "[" ++ p.1 ++ "=\"" ++ cleanAttributeValue p.2 ++ "\"]")
    ""

/-- `' '.repeat(depth)`. -/
def indentStr (depth : Nat) : String := String.mk (List.replicate depth ' ')

/-- `childString.startsWith('{')`. -/
def startsWithBrace (s : String) : Bool :=
  match s.data with
  | '{' :: _ => true
  | _ => false

mutual
/-- The `traverse` function of `generateEmmetCssRepresentation`: an
element renders as its tag name plus up to 4 preference-sorted attributes
followed by its children (depth-limited unless `maxDepth = 0`); a text
node renders inline as `{first 30 chars…}` with the two-tier ellipsis
quirk; anything else renders empty. -/
def traverseN (maxDepth : Nat) : HNode → Nat → String
  | .element tag attrs ch, depth =>
    let emmetString := tag ++ emmetAttrsPart attrs
    let childrenString :=
      if maxDepth = 0 ∨ depth < maxDepth then
        traverseChildren maxDepth ch depth
      else ""
    emmetString ++ childrenString
  | .text s, _ =>
    let t := String.mk (trimJsWs s.data)
    if t = "" then ""
    else
      "\x7b" ++ String.mk (t.data.take 30) ++
        (if 30 < t.length then "…" else "") ++
        (if 120 < t.length then "…" else "") ++ "\x7d"
  | .comment _, _ => ""
/-- Child rendering of `traverse`: skip blank child strings; text-node
children (starting with `{`) are appended inline, others on a new
indented line. -/
def traverseChildren (maxDepth : Nat) : HForest → Nat → String
  | .nil, _ => ""
  | .cons c rest, depth =>
    let childString := traverseN maxDepth c (depth + 1)
    let piece :=
      if String.mk (trimJsWs childString.data) ≠ "" then
        if ¬ startsWithBrace childString then
          "\n" ++ indentStr depth ++ childString
        else childString
      else ""
    piece ++ traverseChildren maxDepth rest depth
end

/-- No two adjacent whitespace characters (the shape `/\s{2,}/` cannot
match). -/
def noDoubleWs : List Char → Bool
  | c1 :: c2 :: rest => (!(isJsWs c1 && isJsWs c2)) && noDoubleWs (c2 :: rest)
  | _ => true

/-- The head, if any, is not whitespace. -/
def headNotWs : List Char → Bool
  | [] => true
  | c :: _ => !(isJsWs c)

/-- An attribute the attribute stages leave untouched: not an inline
handler, not in the omit list, and its value already within the
`trimAttrs` allowance (70 for `class`/`id`, 30 otherwise — which also
covers the stricter-looking `href` stage, since `href` is not
important). -/
def attrOk (p : String × String) : Bool :=
  !(isHandlerAttr p.1) && !(omitAttrs.contains p.1) &&
    (if isImportantAttr p.1 then decide (p.2.length ≤ 70)
     else decide (p.2.length ≤ 30))

mutual
/-- A node already in reduced form: no `style`/`script`/`svg` element,
every attribute within the stage allowances, text without 2+ whitespace
runs and at most 100 characters, comments at most 30 characters. -/
def reducedN : HNode → Bool
  | .element t a ch =>
    !(t == "style") && !(t == "script") && !(t == "svg") &&
      a.all attrOk && reducedF ch
  | .text s => noDoubleWs s.data && decide (s.length ≤ 100)
  | .comment c => decide (c.length ≤ 30)
/-- A forest already in reduced form. -/
def reducedF : HForest → Bool
  | .nil => true
  | .cons n rest => reducedN n && reducedF rest
end

/-- One match attempt of the cleanup module's whitespace regex at the
head of the input.  The regex literal in `CleanupHtml.ts` is
`/\\s{2,}/g`: `\\` is an ESCAPED backslash, so the pattern matches one
literal backslash character followed by two or more literal `s`
characters (it does not mention the whitespace class at all).  Returns
the input remaining after the greedy match, or `none` when the head does
not match. -/
def matchBackslashS : List Char → Option (List Char)
  | '\\' :: rest =>
    let ss := rest.takeWhile (fun c => c = 's')
    if 2 ≤ ss.length then some (rest.drop ss.length) else none
  | _ => none

/-- Global left-to-right replacement for `text.replace(/\\s{2,}/g, ' ')`
(fuel-based; every step consumes at least one character, so the input
length is always enough fuel). -/
def cleanupReplaceAux : Nat → List Char → List Char
  | 0, l => l
  | _ + 1, [] => []
  | fuel + 1, c :: cs =>
    match matchBackslashS (c :: cs) with
    | some rest => ' ' :: cleanupReplaceAux fuel rest
    | none => c :: cleanupReplaceAux fuel cs

/-- `text.replace(/\\s{2,}/g, ' ')`. -/
def cleanupReplace (l : List Char) : List Char := cleanupReplaceAux l.length l

/-- The per-text-node body of the `CleanupHtml.ts` whitespace stage:
`text.replace(/\\s{2,}/g, ' ').trim()`. -/
def cleanupWsText (s : String) : String :=
  String.mk (trimJsWs (cleanupReplace s.data))

/-- The forest under an element during the `CleanupHtml.ts` whitespace
stage: every text node here is a direct child of some element (a member
of `$('*').contents()`), so it is rewritten; recursion continues into
nested elements. -/
def cleanupWsInside : HForest → HForest
  | .nil => .nil
  | .cons (.element t a ch) rest =>
    .cons (.element t a (cleanupWsInside ch)) (cleanupWsInside rest)
  | .cons (.text s) rest => .cons (.text (cleanupWsText s)) (cleanupWsInside rest)
  | .cons (.comment c) rest => .cons (.comment c) (cleanupWsInside rest)

/-- The `trimWhitespace` stage of `CleanupHtml.ts`
(`$('*').contents().filter(text).each(... replace(/\\s{2,}/g, ' ')
.trim() ...)`): text nodes that are direct children of an element are
rewritten; root-level text nodes are not in any element's `contents()`
and stay untouched. -/
def cleanupTrimWhitespaceF : HForest → HForest
  | .nil => .nil
  | .cons (.element t a ch) rest =>
    .cons (.element t a (cleanupWsInside ch)) (cleanupTrimWhitespaceF rest)
  | .cons (.text s) rest => .cons (.text s) (cleanupTrimWhitespaceF rest)
  | .cons (.comment c) rest => .cons (.comment c) (cleanupTrimWhitespaceF rest)

end Reducer


theorem splitFirst_not_mem {sep : Char} {l : List Char} (h : sep ∉ l) :
    splitFirst sep l = (l, none) := by
  induction l with
  | nil => rfl
  | cons c cs ih =>
    simp only [List.mem_cons, not_or] at h
    have hcs : ¬ c = sep := fun hc => h.1 hc.symm
    simp only [splitFirst, if_neg hcs, ih h.2]

theorem splitFirst_append {sep : Char} {a b : List Char} (h : sep ∉ a) :
    splitFirst sep (a ++ sep :: b) = (a, some b) := by
  induction a with
  | nil => simp [splitFirst]
  | cons c cs ih =>
    simp only [List.mem_cons, not_or] at h
    have hcs : ¬ c = sep := fun hc => h.1 hc.symm
    simp only [List.cons_append, splitFirst, if_neg hcs, List.append_eq, ih h.2]

theorem splitFirst_fst_not_mem (sep : Char) (l : List Char) :
    sep ∉ (splitFirst sep l).1 := by
  induction l with
  | nil => simp [splitFirst]
  | cons c cs ih =>
    simp only [splitFirst]
    split
    · simp
    · next hne =>
      simp only [List.mem_cons, not_or]
      exact ⟨fun hc => hne hc.symm, ih⟩

theorem splitFirst_fst_mem {sep : Char} {l : List Char} {c : Char}
    (h : c ∈ (splitFirst sep l).1) : c ∈ l := by
  induction l with
  | nil => simp [splitFirst] at h
  | cons d ds ih =>
    simp only [splitFirst] at h
    split at h
    · simp at h
    · simp only [List.mem_cons] at h ⊢
      cases h with
      | inl h => exact Or.inl h
      | inr h => exact Or.inr (ih h)

theorem splitFirst_snd_mem {sep : Char} {l b a : List Char} {c : Char}
    (h : splitFirst sep l = (b, some a)) (hc : c ∈ a) : c ∈ l := by
  induction l generalizing b with
  | nil => simp [splitFirst] at h
  | cons d ds ih =>
    simp only [splitFirst] at h
    split at h
    · cases h
      exact List.mem_cons_of_mem _ hc
    · cases hr : splitFirst sep ds with
      | mk b2 a2 =>
        simp only [hr] at h
        cases h
        exact List.mem_cons_of_mem _ (ih (b := b2) hr)

theorem splitAll_ne_nil (sep : Char) (l : List Char) : splitAll sep l ≠ [] := by
  cases l with
  | nil => simp [splitAll]
  | cons c cs =>
    simp only [splitAll]
    split
    · simp
    · split <;> simp

theorem splitAll_not_mem (sep : Char) (l : List Char) :
    ∀ seg ∈ splitAll sep l, sep ∉ seg := by
  induction l with
  | nil =>
    intro seg hseg
    simp only [splitAll, List.mem_singleton] at hseg
    simp [hseg]
  | cons c cs ih =>
    intro seg hseg
    simp only [splitAll] at hseg
    split at hseg
    · rcases List.mem_cons.mp hseg with h | h
      · simp [h]
      · exact ih seg h
    · next hne =>
      cases hm : splitAll sep cs with
      | nil => exact absurd hm (splitAll_ne_nil sep cs)
      | cons s rest =>
        rw [hm] at hseg
        rcases List.mem_cons.mp hseg with h | h
        · subst h
          simp only [List.mem_cons, not_or]
          refine ⟨fun hc => hne hc.symm, ?_⟩
          exact ih s (hm ▸ List.mem_cons_self s rest)
        · exact ih seg (hm ▸ List.mem_cons_of_mem s h)

theorem splitAll_mem_mem {sep : Char} {l : List Char} {c : Char} :
    ∀ seg ∈ splitAll sep l, c ∈ seg → c ∈ l := by
  induction l with
  | nil =>
    intro seg hseg hc
    simp only [splitAll, List.mem_singleton] at hseg
    subst hseg
    simp at hc
  | cons d ds ih =>
    intro seg hseg hc
    simp only [splitAll] at hseg
    split at hseg
    · rcases List.mem_cons.mp hseg with h | h
      · subst h; simp at hc
      · exact List.mem_cons_of_mem _ (ih seg h hc)
    · cases hm : splitAll sep ds with
      | nil => exact absurd hm (splitAll_ne_nil sep ds)
      | cons s rest =>
        rw [hm] at hseg
        rcases List.mem_cons.mp hseg with h | h
        · subst h
          rcases List.mem_cons.mp hc with h2 | h2
          · exact h2 ▸ List.mem_cons_self d ds
          · exact List.mem_cons_of_mem _
              (ih s (hm ▸ List.mem_cons_self s rest) h2)
        · exact List.mem_cons_of_mem _
            (ih seg (hm ▸ List.mem_cons_of_mem s h) hc)

theorem splitAll_no_sep {sep : Char} {s : List Char} (h : sep ∉ s) :
    splitAll sep s = [s] := by
  induction s with
  | nil => rfl
  | cons c cs ih =>
    simp only [List.mem_cons, not_or] at h
    have hcs : ¬ c = sep := fun hc => h.1 hc.symm
    simp only [splitAll, if_neg hcs, ih h.2]

theorem splitAll_append_sep {sep : Char} {s m : List Char} (h : sep ∉ s) :
    splitAll sep (s ++ sep :: m) = s :: splitAll sep m := by
  induction s with
  | nil => simp [splitAll]
  | cons c cs ih =>
    simp only [List.mem_cons, not_or] at h
    have hcs : ¬ c = sep := fun hc => h.1 hc.symm
    simp only [List.cons_append, splitAll, if_neg hcs, List.append_eq, ih h.2]

theorem splitAll_joinSep {sep : Char} :
    ∀ segs : List (List Char), segs ≠ [] →
      (∀ seg ∈ segs, sep ∉ seg) → splitAll sep (joinSep sep segs) = segs
  | [], h, _ => absurd rfl h
  | [s], _, hs => by
    have hns : sep ∉ s := hs s (by simp)
    simp [joinSep, splitAll_no_sep hns]
  | s :: t :: rest, _, hs => by
    have hns : sep ∉ s := hs s (by simp)
    have ih := splitAll_joinSep (t :: rest) (by simp)
      (fun seg hseg => hs seg (List.mem_cons_of_mem _ hseg))
    simp [joinSep, splitAll_append_sep hns, ih]

/-! ## Character and decimal-digit helpers -/
theorem char_toNat_ofNat {n : Nat} (h : n < 0xD800) : (Char.ofNat n).toNat = n := by
  unfold Char.ofNat
  rw [dif_pos (Or.inl h)]
  rfl

theorem char_toLower_eq (c : Char) :
    c.toLower = if 65 ≤ c.toNat ∧ c.toNat ≤ 90 then Char.ofNat (c.toNat + 32) else c := by
  unfold Char.toLower
  rcases Nat.decLe 65 c.toNat with h65 | h65 <;> rcases Nat.decLe c.toNat 90 with h90 | h90 <;>
    simp_all [ge_iff_le]

theorem lowerHostChar_toNat {c : Char} (h : isLowerHostChar c = true) :
    (97 ≤ c.toNat ∧ c.toNat ≤ 122) ∨ (48 ≤ c.toNat ∧ c.toNat ≤ 57) ∨
      c.toNat = 45 ∨ c.toNat = 46 ∨ c.toNat = 95 := by
  simp only [isLowerHostChar, Bool.or_eq_true, decide_eq_true_eq, Bool.and_eq_true] at h
  rcases h with ((((⟨h1, h2⟩ | ⟨h1, h2⟩) | rfl) | rfl) | rfl)
  · exact Or.inl ⟨by exact_mod_cast h1, by exact_mod_cast h2⟩
  · exact Or.inr (Or.inl ⟨by exact_mod_cast h1, by exact_mod_cast h2⟩)
  · exact Or.inr (Or.inr (Or.inl rfl))
  · exact Or.inr (Or.inr (Or.inr (Or.inl rfl)))
  · exact Or.inr (Or.inr (Or.inr (Or.inr rfl)))

theorem hostChar_toLower {c : Char} (h : isHostChar c = true) :
    isLowerHostChar c.toLower = true := by
  rw [char_toLower_eq]
  simp only [isHostChar, Bool.or_eq_true, decide_eq_true_eq, Bool.and_eq_true] at h
  split
  · next hrange =>
    have hlt : c.toNat + 32 < 0xD800 := by omega
    simp only [isLowerHostChar, Bool.or_eq_true, Bool.and_eq_true, decide_eq_true_eq]
    refine Or.inl (Or.inl (Or.inl (Or.inl ?_)))
    rw [char_toNat_ofNat hlt]
    omega
  · next hrange =>
    simp only [isLowerHostChar, Bool.or_eq_true, Bool.and_eq_true, decide_eq_true_eq]
    rcases h with (((((⟨h1, h2⟩ | ⟨h1, h2⟩) | ⟨h1, h2⟩) | rfl) | rfl) | rfl)
    · exact Or.inl (Or.inl (Or.inl (Or.inl ⟨h1, h2⟩)))
    · exact absurd ⟨h1, h2⟩ hrange
    · exact Or.inl (Or.inl (Or.inl (Or.inr ⟨h1, h2⟩)))
    · exact Or.inl (Or.inl (Or.inr rfl))
    · exact Or.inl (Or.inr rfl)
    · exact Or.inr rfl

theorem lowerHostChar_toLower_eq {c : Char} (h : isLowerHostChar c = true) :
    c.toLower = c := by
  have h2 := lowerHostChar_toNat h
  rw [char_toLower_eq, if_neg (show ¬ (65 ≤ c.toNat ∧ c.toNat ≤ 90) by omega)]

theorem lowerHostChar_isHostChar {c : Char} (h : isLowerHostChar c = true) :
    isHostChar c = true := by
  simp only [isLowerHostChar, Bool.or_eq_true] at h
  simp only [isHostChar, Bool.or_eq_true]
  tauto

theorem natToDigitsAux_all_digit (fuel n : Nat) :
    ∀ c ∈ natToDigitsAux fuel n, isDigitChar c = true := by
  induction fuel generalizing n with
  | zero =>
    intro c hc
    simp only [natToDigitsAux, List.mem_singleton] at hc
    subst hc
    have hm : n % 10 < 10 := Nat.mod_lt _ (by omega)
    simp only [isDigitChar, Bool.and_eq_true, decide_eq_true_eq]
    rw [char_toNat_ofNat (by omega)]
    omega
  | succ fuel ih =>
    intro c hc
    simp only [natToDigitsAux] at hc
    split at hc
    · next h =>
      simp only [List.mem_singleton] at hc
      subst hc
      simp only [isDigitChar, Bool.and_eq_true, decide_eq_true_eq]
      rw [char_toNat_ofNat (by omega)]
      omega
    · rcases List.mem_append.mp hc with h2 | h2
      · exact ih (n / 10) c h2
      · simp only [List.mem_singleton] at h2
        subst h2
        have hm : n % 10 < 10 := Nat.mod_lt _ (by omega)
        simp only [isDigitChar, Bool.and_eq_true, decide_eq_true_eq]
        rw [char_toNat_ofNat (by omega)]
        omega

theorem natToDigits_all_digit (n : Nat) :
    ∀ c ∈ natToDigits n, isDigitChar c = true :=
  natToDigitsAux_all_digit n n

theorem natToDigits_ne_nil (n : Nat) : natToDigits n ≠ [] := by
  unfold natToDigits
  cases n with
  | zero => simp [natToDigitsAux]
  | succ m =>
    simp only [natToDigitsAux]
    split <;> simp

theorem digitsToNat_append_single (l : List Char) (c : Char) :
    digitsToNat (l ++ [c]) = digitsToNat l * 10 + (c.toNat - 48) := by
  simp [digitsToNat, List.foldl_append]

theorem digitsToNat_natToDigitsAux {fuel n : Nat} (h : n ≤ fuel) :
    digitsToNat (natToDigitsAux fuel n) = n := by
  induction fuel generalizing n with
  | zero =>
    have hn : n = 0 := by omega
    subst hn
    simp only [natToDigitsAux, digitsToNat, List.foldl_cons, List.foldl_nil]
    rw [char_toNat_ofNat (by omega)]
  | succ fuel ih =>
    simp only [natToDigitsAux]
    split
    · next hlt =>
      simp only [digitsToNat, List.foldl_cons, List.foldl_nil]
      rw [char_toNat_ofNat (by omega)]
      omega
    · next hge =>
      have hm : n % 10 < 10 := Nat.mod_lt _ (by omega)
      rw [digitsToNat_append_single, ih (by omega)]
      rw [char_toNat_ofNat (by omega)]
      omega

theorem digitsToNat_natToDigits (n : Nat) : digitsToNat (natToDigits n) = n :=
  digitsToNat_natToDigitsAux (Nat.le_refl n)

theorem digit_ne_of_code {c : Char} (h : isDigitChar c = true) {d : Char}
    (hd : 57 < d.toNat ∨ d.toNat < 48) : c ≠ d := by
  intro he
  subst he
  simp only [isDigitChar, Bool.and_eq_true, decide_eq_true_eq] at h
  omega

namespace Url

theorem lowerHostChar_ne_special {c : Char} (h : isLowerHostChar c = true) :
    c ≠ '#' ∧ c ≠ '?' ∧ c ≠ '/' ∧ c ≠ ':' := by
  have h2 := lowerHostChar_toNat h
  refine ⟨?_, ?_, ?_, ?_⟩ <;> intro he <;> subst he <;> revert h2 <;> decide

theorem digitChar_ne_special {c : Char} (h : isDigitChar c = true) :
    c ≠ '#' ∧ c ≠ '?' ∧ c ≠ '/' := by
  simp only [isDigitChar, Bool.and_eq_true, decide_eq_true_eq] at h
  refine ⟨?_, ?_, ?_⟩ <;> intro he <;> subst he <;> revert h <;> decide

theorem splitFirst_snd_mem2 {sep : Char} {l p : List Char} {c : Char}
    (h : (splitFirst sep l).2 = some p) (hc : c ∈ p) : c ∈ l := by
  have he : splitFirst sep l = ((splitFirst sep l).1, some p) := by rw [← h]
  exact splitFirst_snd_mem he hc

theorem parsePort_ok {scheme : List Char} {po : Option (List Char)}
    {port : Option Nat} (h : parsePort scheme po = some port) :
    ∀ n, port = some n → n ≤ 65535 ∧ n ≠ defaultPort scheme := by
  intro n hn
  subst hn
  cases po with
  | none => simp [parsePort] at h
  | some pc =>
    simp only [parsePort] at h
    split at h
    · split at h
      · simp at h
      · split at h
        · simp at h
        · split at h
          · simp at h
          · next h1 h2 =>
            simp only [Option.some_inj] at h
            cases h
            exact ⟨by omega, h2⟩
    · simp at h

theorem parseAfterScheme_valid {scheme rest : List Char} {r : UrlRecord}
    (hs : scheme = "http".data ∨ scheme = "https".data)
    (h : parseAfterScheme scheme rest = some r) : Valid r := by
  unfold parseAfterScheme at h
  split at h
  · simp at h
  · split at h
    · next hne hall =>
      cases hpp : parsePort scheme (splitHost rest).2 with
      | none => rw [hpp] at h; simp at h
      | some port =>
        rw [hpp] at h
        simp only [Option.some_inj] at h
        subst h
        refine ⟨hs, ?_, ?_, ?_, ?_, ?_, ?_⟩
        · simp only [ne_eq, List.map_eq_nil_iff]
          exact hne
        · intro c hc
          rcases List.mem_map.mp hc with ⟨c0, hc0, rfl⟩
          exact hostChar_toLower (List.all_eq_true.mp hall c0 hc0)
        · exact parsePort_ok hpp
        · unfold pathOf
          split
          · simp
          · exact splitAll_ne_nil _ _
        · intro seg hseg
          unfold pathOf at hseg
          split at hseg
          · simp only [List.mem_singleton] at hseg
            subst hseg
            simp
          · next p hp =>
            refine ⟨splitAll_not_mem _ _ seg hseg, ?_, ?_⟩
            · intro hq
              have h1 : '?' ∈ p := splitAll_mem_mem seg hseg hq
              have h2 : '?' ∈ (splitQuery rest).1 := splitFirst_snd_mem2 hp h1
              exact splitFirst_fst_not_mem '?' (splitFrag rest).1 h2
            · intro hq
              have h1 : '#' ∈ p := splitAll_mem_mem seg hseg hq
              have h2 : '#' ∈ (splitQuery rest).1 := splitFirst_snd_mem2 hp h1
              have h3 : '#' ∈ (splitFrag rest).1 := splitFirst_fst_mem h2
              exact splitFirst_fst_not_mem '#' rest h3
        · intro q hq hmem
          have h2 : '#' ∈ (splitFrag rest).1 := splitFirst_snd_mem2 hq hmem
          exact splitFirst_fst_not_mem '#' rest h2
    · simp at h

theorem parse_valid {l : List Char} {r : UrlRecord} (h : parse l = some r) :
    Valid r := by
  unfold parse at h
  split at h
  · exact parseAfterScheme_valid (Or.inr rfl) h
  · exact parseAfterScheme_valid (Or.inl rfl) h
  · simp at h

theorem pathChars_eq_joinSep {path : List (List Char)} (h : path ≠ []) :
    pathChars path = '/' :: joinSep '/' path := by
  induction path with
  | nil => exact absurd rfl h
  | cons s rest ih =>
    cases rest with
    | nil => simp [pathChars, joinSep]
    | cons t rest2 =>
      have ih2 := ih (by simp)
      simp only [pathChars, List.map_cons, List.flatten_cons] at ih2 ⊢
      rw [ih2]
      simp [joinSep]

theorem mem_pathChars {path : List (List Char)} {c : Char}
    (h : c ∈ pathChars path) : c = '/' ∨ ∃ seg ∈ path, c ∈ seg := by
  unfold pathChars at h
  rcases List.mem_flatten.mp h with ⟨l, hl, hcl⟩
  rcases List.mem_map.mp hl with ⟨seg, hseg, rfl⟩
  rcases List.mem_cons.mp hcl with h | h
  · exact Or.inl h
  · exact Or.inr ⟨seg, hseg, h⟩

theorem parseAfterScheme_serialize
    (scheme host : List Char) (port : Option Nat) (path : List (List Char))
    (query fragment : Option (List Char))
    (hne : host ≠ []) (hhost : ∀ c ∈ host, isLowerHostChar c = true)
    (hport : ∀ n, port = some n → n ≤ 65535 ∧ n ≠ defaultPort scheme)
    (hpne : path ≠ []) (hpath : ∀ seg ∈ path, '/' ∉ seg ∧ '?' ∉ seg ∧ '#' ∉ seg)
    (hquery : ∀ q, query = some q → '#' ∉ q) :
    parseAfterScheme scheme
      (host ++ portChars port ++ pathChars path ++ queryChars query ++
        fragChars fragment)
      = some ⟨scheme, host, port, path, query, fragment⟩ := by
  have hostSpec : ∀ c ∈ host, c ≠ '#' ∧ c ≠ '?' ∧ c ≠ '/' ∧ c ≠ ':' :=
    fun c hc => lowerHostChar_ne_special (hhost c hc)
  have portSpec : ∀ c ∈ portChars port, c ≠ '#' ∧ c ≠ '?' ∧ c ≠ '/' := by
    intro c hc
    cases port with
    | none => simp [portChars] at hc
    | some n =>
      simp only [portChars, List.mem_cons] at hc
      rcases hc with rfl | hc
      · exact ⟨by decide, by decide, by decide⟩
      · exact digitChar_ne_special (natToDigits_all_digit n c hc)
  have pathSpec : ∀ c ∈ pathChars path, c ≠ '#' ∧ c ≠ '?' := by
    intro c hc
    rcases mem_pathChars hc with rfl | ⟨seg, hseg, hcseg⟩
    · exact ⟨by decide, by decide⟩
    · obtain ⟨-, h2, h3⟩ := hpath seg hseg
      exact ⟨fun he => h3 (he ▸ hcseg), fun he => h2 (he ▸ hcseg)⟩
  have querySpec : ∀ c ∈ queryChars query, c ≠ '#' := by
    intro c hc
    cases query with
    | none => simp [queryChars] at hc
    | some q =>
      simp only [queryChars, List.mem_cons] at hc
      rcases hc with rfl | hc
      · decide
      · exact fun he => hquery q rfl (he ▸ hc)
  have hA4 : '#' ∉ host ++ portChars port ++ pathChars path ++ queryChars query := by
    intro hmem
    rcases List.mem_append.mp hmem with hmem | hmem
    · rcases List.mem_append.mp hmem with hmem | hmem
      · rcases List.mem_append.mp hmem with hmem | hmem
        · exact (hostSpec _ hmem).1 rfl
        · exact (portSpec _ hmem).1 rfl
      · exact (pathSpec _ hmem).1 rfl
    · exact querySpec _ hmem rfl
  have hA3 : '?' ∉ host ++ portChars port ++ pathChars path := by
    intro hmem
    rcases List.mem_append.mp hmem with hmem | hmem
    · rcases List.mem_append.mp hmem with hmem | hmem
      · exact (hostSpec _ hmem).2.1 rfl
      · exact (portSpec _ hmem).2.1 rfl
    · exact (pathSpec _ hmem).2 rfl
  have hA2 : '/' ∉ host ++ portChars port := by
    intro hmem
    rcases List.mem_append.mp hmem with hmem | hmem
    · exact (hostSpec _ hmem).2.2.1 rfl
    · exact (portSpec _ hmem).2.2 rfl
  have hHc : ':' ∉ host := fun hmem => (hostSpec _ hmem).2.2.2 rfl
  have hfrag : splitFrag
      (host ++ portChars port ++ pathChars path ++ queryChars query ++
        fragChars fragment)
      = (host ++ portChars port ++ pathChars path ++ queryChars query,
          fragment) := by
    cases fragment with
    | none => simpa [splitFrag, fragChars] using splitFirst_not_mem hA4
    | some f => simpa [splitFrag, fragChars] using splitFirst_append hA4
  have hq2 : splitQuery
      (host ++ portChars port ++ pathChars path ++ queryChars query ++
        fragChars fragment)
      = (host ++ portChars port ++ pathChars path, query) := by
    unfold splitQuery
    rw [hfrag]
    cases query with
    | none => simpa [queryChars] using splitFirst_not_mem hA3
    | some q => simpa [queryChars] using splitFirst_append hA3
  have hp2 : splitPath
      (host ++ portChars port ++ pathChars path ++ queryChars query ++
        fragChars fragment)
      = (host ++ portChars port, some (joinSep '/' path)) := by
    unfold splitPath
    rw [hq2]
    simp only [pathChars_eq_joinSep hpne]
    exact splitFirst_append hA2
  have hpath2 : pathOf
      (host ++ portChars port ++ pathChars path ++ queryChars query ++
        fragChars fragment) = path := by
    unfold pathOf
    rw [hp2]
    exact splitAll_joinSep path hpne (fun seg hseg => (hpath seg hseg).1)
  have hh2 : splitHost
      (host ++ portChars port ++ pathChars path ++ queryChars query ++
        fragChars fragment)
      = (host, Option.map natToDigits port) := by
    unfold splitHost
    rw [hp2]
    cases port with
    | none => simpa [portChars] using splitFirst_not_mem hHc
    | some n => simpa [portChars] using splitFirst_append hHc
  have hpp : parsePort scheme (Option.map natToDigits port) = some port := by
    cases port with
    | none => rfl
    | some n =>
      obtain ⟨hle, hnd⟩ := hport n rfl
      simp only [Option.map_some', parsePort, digitsToNat_natToDigits]
      rw [if_pos (List.all_eq_true.mpr (natToDigits_all_digit n)),
        if_neg (natToDigits_ne_nil n), if_neg (by omega), if_neg hnd]
  have hmap : host.map Char.toLower = host := by
    conv_rhs => rw [← List.map_id host]
    exact List.map_congr_left (fun c hc => lowerHostChar_toLower_eq (hhost c hc))
  unfold parseAfterScheme
  simp only [hh2, hq2, hfrag, hpath2, hpp]
  rw [if_neg hne,
    if_pos (List.all_eq_true.mpr
      (fun c hc => lowerHostChar_isHostChar (hhost c hc)))]
  rw [hmap]

theorem parse_serialize {r : UrlRecord} (v : Valid r) :
    parse (serialize r) = some r := by
  obtain ⟨scheme, host, port, path, query, fragment⟩ := r
  obtain ⟨hs, hne, hhost, hport, hpne, hpath, hquery⟩ := v
  rcases hs with hsh | hsh
  · subst hsh
    show parseAfterScheme "http".data
      (host ++ portChars port ++ pathChars path ++ queryChars query ++
        fragChars fragment) = _
    exact parseAfterScheme_serialize _ host port path query fragment
      hne hhost hport hpne hpath hquery
  · subst hsh
    show parseAfterScheme "https".data
      (host ++ portChars port ++ pathChars path ++ queryChars query ++
        fragChars fragment) = _
    exact parseAfterScheme_serialize _ host port path query fragment
      hne hhost hport hpne hpath hquery

theorem pathChars_length_pos (path : List (List Char)) (h : path ≠ []) :
    0 < (pathChars path).length := by
  cases path with
  | nil => exact absurd rfl h
  | cons s rest => simp [pathChars]

theorem pathname_eq_root {r : UrlRecord} (h : pathname r = ['/']) :
    r.path = [[]] := by
  unfold pathname at h
  cases hp : r.path with
  | nil => rw [hp] at h; simp [pathChars] at h
  | cons s rest =>
    rw [hp] at h
    cases rest with
    | nil =>
      simp only [pathChars, List.map_cons, List.map_nil, List.flatten_cons,
        List.flatten_nil, List.append_nil, List.cons.injEq] at h
      rw [h.2]
    | cons t rest2 =>
      exfalso
      have hlen := congrArg List.length h
      have hpos := pathChars_length_pos (t :: rest2) (by simp)
      simp only [pathChars, List.map_cons, List.flatten_cons] at hlen hpos
      simp only [List.length_append, List.length_cons] at hlen
      simp only [List.length_nil] at hlen
      omega

theorem dropRootSlash_id (r : UrlRecord) : dropRootSlash r = r := by
  unfold dropRootSlash
  split
  · next h =>
    have hp := pathname_eq_root h
    unfold setPathnameEmpty
    rw [← hp]
  · rfl

theorem valid_fragment_none {r : UrlRecord} (v : Valid r) :
    Valid { r with fragment := none } :=
  ⟨v.scheme_ok, v.host_ne, v.host_chars, v.port_ok, v.path_ne, v.path_chars,
    v.query_ok⟩

theorem stripDefaultPort_id {r : UrlRecord} (v : Valid r) :
    stripDefaultPort r = r := by
  unfold stripDefaultPort
  rw [if_neg]
  rintro (⟨hs, hp⟩ | ⟨hs, hp⟩)
  · exact (v.port_ok 80 hp).2 (by rw [hs]; decide)
  · exact (v.port_ok 443 hp).2 (by rw [hs]; decide)

theorem lowerHost_id {r : UrlRecord} (v : Valid r) : lowerHost r = r := by
  unfold lowerHost
  have hmap : r.host.map Char.toLower = r.host := by
    conv_rhs => rw [← List.map_id r.host]
    exact List.map_congr_left
      (fun c hc => lowerHostChar_toLower_eq (v.host_chars c hc))
  rw [hmap]

theorem normalizeRecord_eq {r : UrlRecord} (v : Valid r) :
    normalizeRecord r = { r with fragment := none } := by
  unfold normalizeRecord setHashEmpty
  rw [dropRootSlash_id, stripDefaultPort_id (valid_fragment_none v),
    lowerHost_id (valid_fragment_none v)]

theorem normalizeRecord_valid {r : UrlRecord} (v : Valid r) :
    Valid (normalizeRecord r) := by
  rw [normalizeRecord_eq v]
  exact valid_fragment_none v

theorem normalizeRecord_idem {r : UrlRecord} (v : Valid r) :
    normalizeRecord (normalizeRecord r) = normalizeRecord r := by
  rw [normalizeRecord_eq v, normalizeRecord_eq (valid_fragment_none v)]

end Url

/-- C6: for every URL string u, normalize(normalize(u)) equals
normalize(u) — URL normalization is idempotent.  A failed parse returns
the input unchanged, and a successful normalization serializes to a URL
that reparses to the already-normalized record. -/
theorem normalizeUrl_idempotent (u : String) :
    normalizeUrl (normalizeUrl u) = normalizeUrl u := by
  cases h : Url.parse u.data with
  | none =>
    have h1 : normalizeUrl u = u := by unfold normalizeUrl; rw [h]
    rw [h1]
    exact h1
  | some r =>
    have hv := Url.parse_valid h
    have h1 : normalizeUrl u =
        String.mk (Url.serialize (Url.normalizeRecord r)) := by
      unfold normalizeUrl; rw [h]
    rw [h1]
    unfold normalizeUrl
    rw [show (String.mk (Url.serialize (Url.normalizeRecord r))).data =
      Url.serialize (Url.normalizeRecord r) from rfl]
    rw [Url.parse_serialize (Url.normalizeRecord_valid hv)]
    show String.mk (Url.serialize
      (Url.normalizeRecord (Url.normalizeRecord r))) = _
    rw [Url.normalizeRecord_idem hv]

/-- C4 counterexample: `normalizeUrl` does not strip a root-only trailing
slash.  Assigning an empty pathname to a special-scheme WHATWG URL leaves
the path as "/", so `https://a.com/` maps to itself (not `https://a.com`),
and a slash-less root URL even gains a slash. -/
theorem normalizeUrl_root_slash_not_stripped :
    normalizeUrl "https://a.com/" = "https://a.com/" ∧
    normalizeUrl "https://a.com/" ≠ "https://a.com" ∧
    normalizeUrl "https://a.com" = "https://a.com/" := by decide

/-- C4 (amended): for every input string, `normalizeUrl` lowercases the
host, strips the fragment, strips a default port (80 for http, 443 for
https), and returns malformed input unchanged without throwing; the
root-only trailing slash however is NOT stripped — the path component is
preserved verbatim (a root path stays "/"). -/
theorem normalizeUrl_spec (u : String) :
    (Url.parse u.data = none → normalizeUrl u = u) ∧
    (∀ r, Url.parse u.data = some r →
      Url.parse (normalizeUrl u).data = some (Url.normalizeRecord r) ∧
      (Url.normalizeRecord r).fragment = none ∧
      (Url.normalizeRecord r).host = r.host.map Char.toLower ∧
      (∀ c ∈ (Url.normalizeRecord r).host, isLowerHostChar c = true) ∧
      (∀ n, (Url.normalizeRecord r).port = some n →
        n ≤ 65535 ∧ n ≠ Url.defaultPort (Url.normalizeRecord r).scheme) ∧
      (Url.normalizeRecord r).path = r.path) := by
  constructor
  · intro h
    unfold normalizeUrl
    rw [h]
  · intro r h
    have hv := Url.parse_valid h
    have hn := Url.normalizeRecord_eq hv
    have hmap : r.host.map Char.toLower = r.host := by
      conv_rhs => rw [← List.map_id r.host]
      exact List.map_congr_left
        (fun c hc => lowerHostChar_toLower_eq (hv.host_chars c hc))
    have h1 : normalizeUrl u =
        String.mk (Url.serialize (Url.normalizeRecord r)) := by
      unfold normalizeUrl; rw [h]
    refine ⟨?_, ?_, ?_, ?_, ?_, ?_⟩
    · rw [h1]
      exact Url.parse_serialize (Url.normalizeRecord_valid hv)
    · rw [hn]
    · rw [hn, hmap]
    · intro c hc
      rw [hn] at hc
      exact hv.host_chars c hc
    · intro n hp
      rw [hn] at hp ⊢
      exact hv.port_ok n hp
    · rw [hn]

/-- C4 witness: the amended normalization contract applied at the concrete
well-formed input `http://A.com:8080/x#f`. -/
theorem normalizeUrl_spec_witness :
    Url.parse ("http://A.com:8080/x#f" : String).data ≠ none ∧
    Url.parse (normalizeUrl "http://A.com:8080/x#f").data =
      some (Url.normalizeRecord ⟨"http".data, "a.com".data, some 8080,
        ["x".data], none, some "f".data⟩) :=
  ⟨by decide,
    ((normalizeUrl_spec "http://A.com:8080/x#f").2 _ (by decide)).1⟩

/-- C5: evaluation of `shouldProcessUrl` at the claim's inputs.  The claim
asserts `shouldProcess("https://a.com/x.pdf", [], ["**.pdf"]) = false`,
but both source versions return `true`: minimatch compiles `**.pdf` to a
single path portion (`**` adjacent to other characters is not a
globstar), and a one-portion pattern can never match a URL containing a
slash, so the exclude never fires and the empty include list
default-includes.  The `x.html` half of the claim does hold, and the
final two conjuncts show the portion semantics driving the divergence. -/
theorem shouldProcessUrl_pdf_exclude_eval :
    CrawlerExecute.shouldProcessUrl "https://a.com/x.pdf" [] ["**.pdf"]
        = true ∧
    CrawlerConcurrent.shouldProcessUrl "https://a.com/x.pdf" [] ["**.pdf"]
        = true ∧
    CrawlerExecute.shouldProcessUrl "https://a.com/x.html" [] ["**.pdf"]
        = true ∧
    CrawlerConcurrent.shouldProcessUrl "https://a.com/x.html" [] ["**.pdf"]
        = true ∧
    Minimatch.minimatch "x.pdf" "**.pdf" = true ∧
    Minimatch.minimatch "a.com/x.pdf" "**.pdf" = false := by decide

/-- C1: evaluation of the crawler at a run with 12 pending items where
every fetch fails.  After the 11th item is marked failed the source does
set the run 'failed' inside the counting transaction, but the very next
statement (`cancelRemainingItems`) overwrites the run to 'canceled' while
canceling the remaining pending item with reason "Too many failed
requests", and the guaranteed finalization then finds no pending or
processing items and overwrites the run to 'completed'.  So the
remaining-items half of the claim holds, but the final run status is
'completed', not 'failed': already when the loop exits by throwing, the
run reads 'canceled'. -/
theorem crawler_failure_budget_eval :
    (let r := CrawlerExecute.loopRun
        (fun _ => CrawlerExecute.FetchOutcome.failure "network error")
        3 100 [] [] 20 0 (CrawlerExecute.runWithPending 12)
     let final := CrawlerExecute.processCrawlerQueue
        (fun _ => CrawlerExecute.FetchOutcome.failure "network error")
        3 100 [] [] 20 (CrawlerExecute.runWithPending 12)
     r.2 = some "Too many failed requests, stopping crawler" ∧
     r.1.runStatus = CrawlerExecute.RunStatus.canceled ∧
     CrawlerExecute.failedCount final = 11 ∧
     ((final.items.filter
         (fun i => i.status = CrawlerExecute.ItemStatus.canceled)).map
        (fun i => i.error)) = [some "Too many failed requests"] ∧
     final.runStatus = CrawlerExecute.RunStatus.completed ∧
     final.runStatus ≠ CrawlerExecute.RunStatus.failed) := by decide

/-- C2 counterexample: terminal run statuses are not sticky.  A later
status write of the core mutates a terminal run: `cancelRemainingItems`
turns a 'failed' run into 'canceled', and the end-of-run finalization
turns a 'canceled' run with no pending/processing items into
'completed'. -/
theorem terminal_status_overwritten :
    (CrawlerExecute.cancelRemainingItems
        { runStatus := CrawlerExecute.RunStatus.failed, items := [],
          nextId := 1, now := 0 } "x").runStatus
      ≠ CrawlerExecute.RunStatus.failed ∧
    (CrawlerExecute.finalizeRun
        { runStatus := CrawlerExecute.RunStatus.canceled, items := [],
          nextId := 1, now := 0 }).runStatus
      = CrawlerExecute.RunStatus.completed := by decide

/-- C2 (amended): run-status writes of the core are unconditional, so
terminal statuses are not sticky: for every state, `cancelRemainingItems`
leaves the run 'canceled', and the guaranteed finalization leaves it
'completed' exactly when no pending or processing items remain (and
'canceled' otherwise) — regardless of any terminal status already set. -/
theorem run_status_writes_unconditional (s : CrawlerExecute.CrawlState)
    (reason : String) :
    (CrawlerExecute.cancelRemainingItems s reason).runStatus
        = CrawlerExecute.RunStatus.canceled ∧
    (CrawlerExecute.finalizeRun s).runStatus
        = (if 0 < CrawlerExecute.pendingProcessingCount s then
            CrawlerExecute.RunStatus.canceled
          else CrawlerExecute.RunStatus.completed) := by
  refine ⟨rfl, ?_⟩
  unfold CrawlerExecute.finalizeRun
  split
  · rfl
  · rfl

/-- C3: evaluation of the crawler at a paused run with 2 pending items.
The worker still claims the next item (pending → processing) before it
observes the non-running status and breaks; the claimed item is abandoned
in 'processing' and the guaranteed finalization then cancels every
pending/processing item with reason "Crawler process ended" and sets the
run 'canceled'.  Nothing remains pending for a later resume and the
claimed item never completes — contradicting the claim that pausing
stops claiming, preserves pending items, and lets claimed items finish
normally. -/
theorem crawler_pause_cancels_pending_eval :
    (let final := CrawlerExecute.processCrawlerQueue
        (fun _ => CrawlerExecute.FetchOutcome.failure "unused")
        3 100 [] [] 10
        (CrawlerOperations.pauseRun (CrawlerExecute.runWithPending 2))
     final.runStatus = CrawlerExecute.RunStatus.canceled ∧
     final.runStatus ≠ CrawlerExecute.RunStatus.paused ∧
     (final.items.map (fun i => (i.status, i.error))) =
       [(CrawlerExecute.ItemStatus.canceled, some "Crawler process ended"),
        (CrawlerExecute.ItemStatus.canceled, some "Crawler process ended")] ∧
     (final.items.filter
        (fun i => i.status = CrawlerExecute.ItemStatus.pending)).length
       = 0) := by decide

theorem textNodes_trimTextNodesF (d : Reducer.HForest) :
    Reducer.textNodesF (Reducer.trimTextNodesF d) =
      (Reducer.textNodesF d).map Reducer.trimText := by
  induction d using Reducer.trimTextNodesF.induct with
  | case1 => rfl
  | case2 t a ch rest ih1 ih2 =>
    simp [Reducer.trimTextNodesF, Reducer.textNodesF, ih1, ih2]
  | case3 s rest ih =>
    simp [Reducer.trimTextNodesF, Reducer.textNodesF, ih]
  | case4 c rest ih =>
    simp [Reducer.trimTextNodesF, Reducer.textNodesF, ih]

set_option maxRecDepth 4000 in
/-- C7: in the reduce pipeline's final text stage, every text node is
replaced by `trimText` of its content; `trimText` maps any text longer
than 100 characters to its first 100 characters followed by an ellipsis
and the literal count of the removed characters, and in particular a text
node of 150 'a' characters becomes 100 'a' characters followed by
"… [50 chars more]". -/
theorem trimText_spec :
    (∀ t : String, 100 < t.length →
      Reducer.trimText t = String.mk (t.data.take 100) ++ "… [" ++
        toString (t.length - 100) ++ " chars more]") ∧
    (∀ d : Reducer.HForest,
      Reducer.textNodesF (Reducer.trimTextNodesF d) =
        (Reducer.textNodesF d).map Reducer.trimText) ∧
    Reducer.trimText (String.mk (List.replicate 150 'a')) =
      String.mk (List.replicate 100 'a') ++ "… [50 chars more]" := by
  refine ⟨?_, textNodes_trimTextNodesF, by decide⟩
  intro t h
  unfold Reducer.trimText
  rw [if_pos h]

set_option maxRecDepth 4000 in
/-- C7 witness: the truncation contract applied at the 150-character text
node of the claim's example. -/
theorem trimText_spec_witness :
    100 < (String.mk (List.replicate 150 'a')).length ∧
    Reducer.trimText (String.mk (List.replicate 150 'a')) =
      String.mk ((String.mk (List.replicate 150 'a')).data.take 100) ++
        "… [" ++ toString ((String.mk (List.replicate 150 'a')).length - 100)
        ++ " chars more]" :=
  ⟨by decide, trimText_spec.1 _ (by decide)⟩

theorem collapseWsAux_true_head (l : List Char) :
    Reducer.headNotWs (Reducer.collapseWsAux true l) = true := by
  induction l with
  | nil => rfl
  | cons c cs ih =>
    simp only [Reducer.collapseWsAux]
    split
    · exact ih
    · next h => simp [Reducer.headNotWs, h]

theorem collapseWsAux_false_head {c : Char} (cs : List Char)
    (h : Reducer.isJsWs c = false) :
    Reducer.headNotWs (Reducer.collapseWsAux false (c :: cs)) = true := by
  cases cs with
  | nil => simp [Reducer.collapseWsAux, Reducer.headNotWs, h]
  | cons c2 cs2 =>
    simp only [Reducer.collapseWsAux]
    rw [if_neg (by simp [h])]
    simp [Reducer.headNotWs, h]

theorem noDoubleWs_cons {c : Char} {l : List Char}
    (h1 : Reducer.isJsWs c = false ∨ Reducer.headNotWs l = true)
    (h2 : Reducer.noDoubleWs l = true) :
    Reducer.noDoubleWs (c :: l) = true := by
  cases l with
  | nil => rfl
  | cons d ds =>
    simp only [Reducer.noDoubleWs, Bool.and_eq_true, Bool.not_eq_true']
    refine ⟨?_, h2⟩
    rcases h1 with h1 | h1
    · simp [h1]
    · simp only [Reducer.headNotWs, Bool.not_eq_true'] at h1
      simp [h1]

theorem collapseWsAux_noDoubleWs :
    ∀ (n : Nat) (l : List Char) (b : Bool), l.length ≤ n →
      Reducer.noDoubleWs (Reducer.collapseWsAux b l) = true := by
  intro n
  induction n with
  | zero =>
    intro l b hl
    have : l = [] := by
      cases l with
      | nil => rfl
      | cons c cs => simp at hl
    subst this
    cases b <;> rfl
  | succ n ih =>
    intro l b hl
    cases l with
    | nil => cases b <;> rfl
    | cons c cs =>
      simp only [List.length_cons] at hl
      cases b with
      | true =>
        simp only [Reducer.collapseWsAux]
        split
        · exact ih cs true (by omega)
        · next h =>
          exact noDoubleWs_cons (Or.inl (by simpa using h))
            (ih cs false (by omega))
      | false =>
        cases cs with
        | nil => rfl
        | cons c2 cs2 =>
          simp only [List.length_cons] at hl
          simp only [Reducer.collapseWsAux]
          split
          · split
            · exact noDoubleWs_cons (Or.inr (collapseWsAux_true_head cs2))
                (ih cs2 true (by omega))
            · next hc2 =>
              exact noDoubleWs_cons
                (Or.inr (collapseWsAux_false_head cs2 (by simpa using hc2)))
                (ih (c2 :: cs2) false (by simp; omega))
          · next hc =>
            exact noDoubleWs_cons (Or.inl (by simpa using hc))
              (ih (c2 :: cs2) false (by simp; omega))

theorem collapseWsAux_allws_append {w m : List Char}
    (h : ∀ c ∈ w, Reducer.isJsWs c = true) :
    Reducer.collapseWsAux true (w ++ m) = Reducer.collapseWsAux true m := by
  induction w with
  | nil => rfl
  | cons c cs ih =>
    simp only [List.cons_append, Reducer.collapseWsAux]
    rw [if_pos (h c (by simp))]
    exact ih (fun c2 hc2 => h c2 (List.mem_cons_of_mem _ hc2))

theorem collapseWsAux_true_eq_false {m : List Char}
    (h : ∀ c, m.head? = some c → Reducer.isJsWs c = false) :
    Reducer.collapseWsAux true m = Reducer.collapseWsAux false m := by
  cases m with
  | nil => rfl
  | cons c cs =>
    have hc : Reducer.isJsWs c = false := h c rfl
    cases cs with
    | nil => simp [Reducer.collapseWsAux, hc]
    | cons c2 cs2 =>
      simp only [Reducer.collapseWsAux]
      rw [if_neg (by simp [hc]), if_neg (by simp [hc])]

theorem collapseWsAux_nonws_prefix :
    ∀ (xs m : List Char), (∀ c ∈ xs, Reducer.isJsWs c = false) →
      Reducer.collapseWsAux false (xs ++ m) =
        xs ++ Reducer.collapseWsAux false m := by
  intro xs
  induction xs with
  | nil => intro m h; rfl
  | cons x xs2 ih =>
    intro m h
    have hx : Reducer.isJsWs x = false := h x (by simp)
    cases hm : xs2 ++ m with
    | nil =>
      rcases List.append_eq_nil.mp hm with ⟨h1, h2⟩
      subst h1
      subst h2
      rfl
    | cons d ds =>
      simp only [List.cons_append, hm, Reducer.collapseWsAux]
      rw [if_neg (by simp [hx]), ← hm]
      rw [ih m (fun c hc => h c (List.mem_cons_of_mem _ hc))]

theorem textNodes_trimWhitespaceF (d : Reducer.HForest) :
    Reducer.textNodesF (Reducer.trimWhitespaceF d) =
      (Reducer.textNodesF d).map
        (fun t => String.mk (Reducer.collapseWs t.data)) := by
  induction d using Reducer.trimWhitespaceF.induct with
  | case1 => rfl
  | case2 t a ch rest ih1 ih2 =>
    simp [Reducer.trimWhitespaceF, Reducer.textNodesF, ih1, ih2]
  | case3 s rest ih =>
    simp [Reducer.trimWhitespaceF, Reducer.textNodesF, ih]
  | case4 c rest ih =>
    simp [Reducer.trimWhitespaceF, Reducer.textNodesF, ih]

/-- C8: the claim covers two cited implementations of the whitespace
stage, and they diverge.  The `CleanupHtml.ts` version's regex literal is
`/\\s{2,}/g` — an escaped backslash — so it matches one literal backslash
followed by 2 or more literal `s` characters and collapses no whitespace
at all (it also applies an unspecced `.trim()`): conjunct 1 runs that
stage on the claim's own example and gets `<p>Hello     world</p>` back
unchanged; conjunct 2 is the same no-op on the bare text; conjunct 3
shows what the code actually rewrites (a backslash-`ssss` run becomes one
space, and the trailing `.trim()` strips the outer whitespace).  The
reducer-module (`part_000`) version does behave as claimed: conjunct 4 is
the example collapsing to `<p>Hello world</p>`, conjunct 5 says that
stage rewrites every text node with `collapseWs`, and conjunct 6 that
`collapseWs` output never contains two adjacent whitespace characters. -/
theorem trimWhitespace_divergence :
    Reducer.serializeF (Reducer.cleanupTrimWhitespaceF
        (Reducer.parseHtml "<p>Hello     world</p>"))
      = "<p>Hello     world</p>" ∧
    Reducer.cleanupWsText "Hello     world" = "Hello     world" ∧
    Reducer.cleanupWsText " a\\ssss b " = "a  b" ∧
    Reducer.serializeF (Reducer.trimWhitespaceF
        (Reducer.parseHtml "<p>Hello     world</p>"))
      = "<p>Hello world</p>" ∧
    (∀ d : Reducer.HForest,
      Reducer.textNodesF (Reducer.trimWhitespaceF d) =
        (Reducer.textNodesF d).map
          (fun t => String.mk (Reducer.collapseWs t.data))) ∧
    (∀ l : List Char, Reducer.noDoubleWs (Reducer.collapseWs l) = true) :=
  ⟨by rfl, by rfl, by rfl, by rfl, textNodes_trimWhitespaceF,
    fun l => collapseWsAux_noDoubleWs l.length l false (Nat.le_refl _)⟩

theorem insertByIdx_skip {x : String × String} :
    ∀ (A B : List (String × String)),
      (∀ y ∈ A, Reducer.prioritizedIdx x.1 ≤ Reducer.prioritizedIdx y.1) →
      Reducer.insertByIdx x (A ++ B) = A ++ Reducer.insertByIdx x B := by
  intro A
  induction A with
  | nil => intro B h; rfl
  | cons y ys ih =>
    intro B h
    simp only [List.cons_append, Reducer.insertByIdx, List.append_eq]
    rw [if_neg (by have := h y (by simp); omega)]
    rw [ih B (fun z hz => h z (List.mem_cons_of_mem _ hz))]

theorem insertByIdx_front {x : String × String}
    {B : List (String × String)}
    (h : ∀ y ∈ B, Reducer.prioritizedIdx y.1 < Reducer.prioritizedIdx x.1) :
    Reducer.insertByIdx x B = x :: B := by
  cases B with
  | nil => rfl
  | cons y ys =>
    simp only [Reducer.insertByIdx]
    rw [if_pos (h y (by simp))]

theorem prioritizedIdx_cases (name : String) :
    (name = "data-" ∧ Reducer.prioritizedIdx name = 2) ∨
    (name = "src" ∧ Reducer.prioritizedIdx name = 1) ∨
    (name = "class" ∧ Reducer.prioritizedIdx name = 0) ∨
    (name ≠ "data-" ∧ name ≠ "src" ∧ name ≠ "class" ∧
      Reducer.prioritizedIdx name = -1) := by
  unfold Reducer.prioritizedIdx
  by_cases h1 : name = "class"
  · simp [h1]
  · by_cases h2 : name = "src"
    · simp [h1, h2]
    · by_cases h3 : name = "data-"
      · simp [h1, h2, h3]
      · simp [h1, h2, h3]

theorem foldl_insert_buckets :
    ∀ (l A3 A2 A1 A0 : List (String × String)),
      (∀ y ∈ A3, y.1 = "data-") → (∀ y ∈ A2, y.1 = "src") →
      (∀ y ∈ A1, y.1 = "class") →
      (∀ y ∈ A0, Reducer.prioritizedIdx y.1 = -1) →
      List.foldl (fun acc x => Reducer.insertByIdx x acc)
          (A3 ++ A2 ++ A1 ++ A0) l =
        (A3 ++ l.filter (fun p => p.1 == "data-")) ++
        (A2 ++ l.filter (fun p => p.1 == "src")) ++
        (A1 ++ l.filter (fun p => p.1 == "class")) ++
        (A0 ++ l.filter (fun p =>
          !(p.1 == "data-") && !(p.1 == "src") && !(p.1 == "class"))) := by
  intro l
  induction l with
  | nil =>
    intro A3 A2 A1 A0 h3 h2 h1 h0
    simp
  | cons x xs ih =>
    intro A3 A2 A1 A0 h3 h2 h1 h0
    have idx3 : ∀ y ∈ A3, Reducer.prioritizedIdx y.1 = 2 := by
      intro y hy; rw [h3 y hy]; rfl
    have idx2 : ∀ y ∈ A2, Reducer.prioritizedIdx y.1 = 1 := by
      intro y hy; rw [h2 y hy]; rfl
    have idx1 : ∀ y ∈ A1, Reducer.prioritizedIdx y.1 = 0 := by
      intro y hy; rw [h1 y hy]; rfl
    simp only [List.foldl_cons]
    rcases prioritizedIdx_cases x.1 with ⟨hx, hix⟩ | ⟨hx, hix⟩ |
      ⟨hx, hix⟩ | ⟨hxa, hxb, hxc, hix⟩
    · -- x is the literal "data-" attribute: skips A3, lands before the rest
      have hstep : Reducer.insertByIdx x (A3 ++ A2 ++ A1 ++ A0) =
          (A3 ++ [x]) ++ A2 ++ A1 ++ A0 := by
        rw [show A3 ++ A2 ++ A1 ++ A0 = A3 ++ (A2 ++ A1 ++ A0) by
          simp [List.append_assoc]]
        rw [insertByIdx_skip A3 _ (by intro y hy; rw [idx3 y hy, hix])]
        rw [insertByIdx_front (by
          intro y hy
          rw [hix]
          simp only [List.append_assoc, List.mem_append] at hy
          rcases hy with hy | hy | hy
          · rw [idx2 y hy]; omega
          · rw [idx1 y hy]; omega
          · rw [h0 y hy]; omega)]
        simp [List.append_assoc]
      rw [hstep, ih (A3 ++ [x]) A2 A1 A0
        (by intro y hy
            rcases List.mem_append.mp hy with hy | hy
            · exact h3 y hy
            · simp only [List.mem_singleton] at hy; rw [hy, hx])
        h2 h1 h0]
      have hf3 : (x :: xs).filter (fun p => p.1 == "data-") =
          x :: xs.filter (fun p => p.1 == "data-") := by
        simp [List.filter_cons, hx]
      have hf2 : (x :: xs).filter (fun p => p.1 == "src") =
          xs.filter (fun p => p.1 == "src") := by
        simp [List.filter_cons, hx]
      have hf1 : (x :: xs).filter (fun p => p.1 == "class") =
          xs.filter (fun p => p.1 == "class") := by
        simp [List.filter_cons, hx]
      have hf0 : (x :: xs).filter (fun p =>
          !(p.1 == "data-") && !(p.1 == "src") && !(p.1 == "class")) =
          xs.filter (fun p =>
          !(p.1 == "data-") && !(p.1 == "src") && !(p.1 == "class")) := by
        simp [List.filter_cons, hx]
      rw [hf3, hf2, hf1, hf0]
      simp [List.append_assoc]
    · -- x is "src": skips A3 and A2
      have hstep : Reducer.insertByIdx x (A3 ++ A2 ++ A1 ++ A0) =
          A3 ++ (A2 ++ [x]) ++ A1 ++ A0 := by
        rw [show A3 ++ A2 ++ A1 ++ A0 = (A3 ++ A2) ++ (A1 ++ A0) by
          simp [List.append_assoc]]
        rw [insertByIdx_skip (A3 ++ A2) _ (by
          intro y hy
          rcases List.mem_append.mp hy with hy | hy
          · rw [idx3 y hy, hix]; omega
          · rw [idx2 y hy, hix])]
        rw [insertByIdx_front (by
          intro y hy
          rw [hix]
          rcases List.mem_append.mp hy with hy | hy
          · rw [idx1 y hy]; omega
          · rw [h0 y hy]; omega)]
        simp [List.append_assoc]
      rw [hstep, ih A3 (A2 ++ [x]) A1 A0 h3
        (by intro y hy
            rcases List.mem_append.mp hy with hy | hy
            · exact h2 y hy
            · simp only [List.mem_singleton] at hy; rw [hy, hx])
        h1 h0]
      have hne : x.1 ≠ "data-" := by rw [hx]; decide
      have hf3 : (x :: xs).filter (fun p => p.1 == "data-") =
          xs.filter (fun p => p.1 == "data-") := by
        simp [List.filter_cons, hne]
      have hf2 : (x :: xs).filter (fun p => p.1 == "src") =
          x :: xs.filter (fun p => p.1 == "src") := by
        simp [List.filter_cons, hx]
      have hf1 : (x :: xs).filter (fun p => p.1 == "class") =
          xs.filter (fun p => p.1 == "class") := by
        simp [List.filter_cons, hx]
      have hf0 : (x :: xs).filter (fun p =>
          !(p.1 == "data-") && !(p.1 == "src") && !(p.1 == "class")) =
          xs.filter (fun p =>
          !(p.1 == "data-") && !(p.1 == "src") && !(p.1 == "class")) := by
        simp [List.filter_cons, hx]
      rw [hf3, hf2, hf1, hf0]
      simp [List.append_assoc]
    · -- x is "class": skips A3, A2 and A1
      have hstep : Reducer.insertByIdx x (A3 ++ A2 ++ A1 ++ A0) =
          A3 ++ A2 ++ (A1 ++ [x]) ++ A0 := by
        rw [show A3 ++ A2 ++ A1 ++ A0 = (A3 ++ A2 ++ A1) ++ A0 by
          simp [List.append_assoc]]
        rw [insertByIdx_skip (A3 ++ A2 ++ A1) _ (by
          intro y hy
          simp only [List.mem_append] at hy
          rcases hy with (hy | hy) | hy
          · rw [idx3 y hy, hix]; omega
          · rw [idx2 y hy, hix]; omega
          · rw [idx1 y hy, hix])]
        rw [insertByIdx_front (by
          intro y hy
          rw [hix, h0 y hy]
          omega)]
        simp [List.append_assoc]
      rw [hstep, ih A3 A2 (A1 ++ [x]) A0 h3 h2
        (by intro y hy
            rcases List.mem_append.mp hy with hy | hy
            · exact h1 y hy
            · simp only [List.mem_singleton] at hy; rw [hy, hx])
        h0]
      have hne3 : x.1 ≠ "data-" := by rw [hx]; decide
      have hne2 : x.1 ≠ "src" := by rw [hx]; decide
      have hf3 : (x :: xs).filter (fun p => p.1 == "data-") =
          xs.filter (fun p => p.1 == "data-") := by
        simp [List.filter_cons, hne3]
      have hf2 : (x :: xs).filter (fun p => p.1 == "src") =
          xs.filter (fun p => p.1 == "src") := by
        simp [List.filter_cons, hne2]
      have hf1 : (x :: xs).filter (fun p => p.1 == "class") =
          x :: xs.filter (fun p => p.1 == "class") := by
        simp [List.filter_cons, hx]
      have hf0 : (x :: xs).filter (fun p =>
          !(p.1 == "data-") && !(p.1 == "src") && !(p.1 == "class")) =
          xs.filter (fun p =>
          !(p.1 == "data-") && !(p.1 == "src") && !(p.1 == "class")) := by
        simp [List.filter_cons, hx]
      rw [hf3, hf2, hf1, hf0]
      simp [List.append_assoc]
    · -- x is unprioritized: lands at the very end (stable)
      have hstep : Reducer.insertByIdx x (A3 ++ A2 ++ A1 ++ A0) =
          A3 ++ A2 ++ A1 ++ (A0 ++ [x]) := by
        rw [show A3 ++ A2 ++ A1 ++ A0 = (A3 ++ A2 ++ A1 ++ A0) ++ [] by
          simp]
        rw [insertByIdx_skip (A3 ++ A2 ++ A1 ++ A0) [] (by
          intro y hy
          simp only [List.mem_append] at hy
          rcases hy with ((hy | hy) | hy) | hy
          · rw [idx3 y hy, hix]; omega
          · rw [idx2 y hy, hix]; omega
          · rw [idx1 y hy, hix]; omega
          · rw [h0 y hy, hix])]
        simp [List.append_assoc, Reducer.insertByIdx]
      rw [hstep, ih A3 A2 A1 (A0 ++ [x]) h3 h2 h1
        (by intro y hy
            rcases List.mem_append.mp hy with hy | hy
            · exact h0 y hy
            · simp only [List.mem_singleton] at hy; rw [hy]; exact hix)]
      have hf3 : (x :: xs).filter (fun p => p.1 == "data-") =
          xs.filter (fun p => p.1 == "data-") := by
        simp [List.filter_cons, hxa]
      have hf2 : (x :: xs).filter (fun p => p.1 == "src") =
          xs.filter (fun p => p.1 == "src") := by
        simp [List.filter_cons, hxb]
      have hf1 : (x :: xs).filter (fun p => p.1 == "class") =
          xs.filter (fun p => p.1 == "class") := by
        simp [List.filter_cons, hxc]
      have hf0 : (x :: xs).filter (fun p =>
          !(p.1 == "data-") && !(p.1 == "src") && !(p.1 == "class")) =
          x :: xs.filter (fun p =>
          !(p.1 == "data-") && !(p.1 == "src") && !(p.1 == "class")) := by
        simp [List.filter_cons, hxa, hxb, hxc]
      rw [hf3, hf2, hf1, hf0]
      simp [List.append_assoc]

theorem string_append_empty (s : String) : s ++ "" = s := by
  cases s with
  | mk data =>
    show String.mk (data ++ []) = String.mk data
    rw [List.append_nil]

theorem sortAttrKeys_buckets (attrs : List (String × String)) :
    Reducer.sortAttrKeys attrs =
      attrs.filter (fun p => p.1 == "data-") ++
      attrs.filter (fun p => p.1 == "src") ++
      attrs.filter (fun p => p.1 == "class") ++
      attrs.filter (fun p =>
        !(p.1 == "data-") && !(p.1 == "src") && !(p.1 == "class")) := by
  have h := foldl_insert_buckets attrs [] [] [] []
    (by intro y hy; cases hy) (by intro y hy; cases hy)
    (by intro y hy; cases hy) (by intro y hy; cases hy)
  simpa [Reducer.sortAttrKeys, List.append_assoc] using h

theorem traverseN_leaf_element (tag : String)
    (attrs : List (String × String)) :
    Reducer.traverseN 0
        (Reducer.HNode.element tag attrs Reducer.HForest.nil) 0 =
      tag ++ Reducer.emmetAttrsPart attrs := by
  show (tag ++ Reducer.emmetAttrsPart attrs) ++
      (if (0 : Nat) = 0 ∨ (0 : Nat) < 0 then
        Reducer.traverseChildren 0 Reducer.HForest.nil 0 else "") =
      tag ++ Reducer.emmetAttrsPart attrs
  rw [if_pos (Or.inl rfl)]
  exact string_append_empty _

/-- **C9** — counterexample. The spec says attributes are
preference-sorted so that `class`, then `src`, then any `data-`-prefixed
attribute come first. The comparator `indexOf(b) - indexOf(a)` actually
sorts by DESCENDING index of `['class','src','data-']`, so `src` is
emitted before `class` (first conjunct), and only the literal attribute
name `data-` is prioritized: a `data-x` attribute gets no preference and
stays behind `id` in original order (second conjunct). -/
theorem emmet_attr_order_counterexample :
    Reducer.traverseN 0
        (Reducer.HNode.element "img" [("class", "c"), ("src", "s")]
          Reducer.HForest.nil) 0 = "img[src=\"s\"][class=\"c\"]" ∧
    Reducer.sortAttrKeys [("id", "i"), ("data-x", "v")] =
      [("id", "i"), ("data-x", "v")] := by
  exact ⟨rfl, rfl⟩

/-- **C9** (amended). In the structural outline every element renders as
its tag name followed by at most 4 attributes in `[name="value"]` form
with values whitespace-collapsed, but the preference order is the
REVERSE of the claim: the sort is stably descending by index in
`['class','src','data-']`, so attributes named exactly `data-` come
first, then `src`, then `class`, then all remaining attributes (including
ones merely prefixed by `data-`) in original order. Conjunct 1: the sort
is exactly this four-bucket ordering, each bucket in original order.
Conjunct 2: a childless element renders as tag ++ attribute part (up to 4
sorted attributes). Conjunct 3: a 5-attribute div demonstrates the order,
the 4-attribute cap, the non-priority of `data-x`, and whitespace
collapse in the `class` value. -/
theorem emmet_attr_order_spec :
    (∀ attrs : List (String × String),
      Reducer.sortAttrKeys attrs =
        attrs.filter (fun p => p.1 == "data-") ++
        attrs.filter (fun p => p.1 == "src") ++
        attrs.filter (fun p => p.1 == "class") ++
        attrs.filter (fun p =>
          !(p.1 == "data-") && !(p.1 == "src") && !(p.1 == "class"))) ∧
    (∀ (tag : String) (attrs : List (String × String)),
      Reducer.traverseN 0
          (Reducer.HNode.element tag attrs Reducer.HForest.nil) 0 =
        tag ++ Reducer.emmetAttrsPart attrs) ∧
    Reducer.traverseN 0
        (Reducer.HNode.element "div"
          [("id", "i"), ("data-x", "v"), ("class", "a  b"), ("src", "s"),
            ("data-", "d")]
          Reducer.HForest.nil) 0 =
      "div[data-=\"d\"][src=\"s\"][class=\"a b\"][id=\"i\"]" := by
  exact ⟨sortAttrKeys_buckets, traverseN_leaf_element, rfl⟩

theorem collapseWsAux_fixed :
    ∀ (n : Nat) (l : List Char), l.length ≤ n →
      Reducer.noDoubleWs l = true → Reducer.collapseWsAux false l = l := by
  intro n
  induction n with
  | zero =>
    intro l hl _
    have hnil : l = [] := by
      cases l with
      | nil => rfl
      | cons c cs => simp at hl
    rw [hnil]
    rfl
  | succ n ih =>
    intro l hl hnd
    match l with
    | [] => rfl
    | [c] => rfl
    | c :: c2 :: cs2 =>
      simp only [Reducer.noDoubleWs, Bool.and_eq_true, Bool.not_eq_true'] at hnd
      have hrec : Reducer.collapseWsAux false (c2 :: cs2) = c2 :: cs2 := by
        refine ih (c2 :: cs2) ?_ hnd.2
        simp only [List.length_cons] at hl ⊢
        omega
      cases hc : Reducer.isJsWs c with
      | false =>
        simp only [Reducer.collapseWsAux]
        rw [if_neg (by simp [hc]), hrec]
      | true =>
        have hc2 : Reducer.isJsWs c2 = false := by
          have := hnd.1
          rw [hc] at this
          simpa using this
        simp only [Reducer.collapseWsAux]
        rw [if_pos (by simp [hc]), if_neg (by simp [hc2]), hrec]

theorem collapseWs_fixed {l : List Char}
    (h : Reducer.noDoubleWs l = true) :
    Reducer.collapseWs l = l :=
  collapseWsAux_fixed l.length l (Nat.le_refl _) h

theorem removeStyleScriptF_id (d : Reducer.HForest)
    (h : Reducer.reducedF d = true) :
    Reducer.removeStyleScriptF d = d := by
  induction d using Reducer.removeStyleScriptF.induct with
  | case1 => rfl
  | case2 t a ch rest hts ih =>
    exfalso
    simp only [Reducer.reducedF, Reducer.reducedN, Bool.and_eq_true,
      Bool.not_eq_true', beq_eq_false_iff_ne] at h
    rcases hts with hts | hts
    · exact h.1.1.1.1.1 hts
    · exact h.1.1.1.1.2 hts
  | case3 t a ch rest hts ih1 ih2 =>
    simp only [Reducer.reducedF, Reducer.reducedN, Bool.and_eq_true] at h
    rw [Reducer.removeStyleScriptF, if_neg hts, ih1 h.1.2, ih2 h.2]
  | case4 s rest ih =>
    simp only [Reducer.reducedF, Bool.and_eq_true] at h
    rw [Reducer.removeStyleScriptF, ih h.2]
  | case5 c rest ih =>
    simp only [Reducer.reducedF, Bool.and_eq_true] at h
    rw [Reducer.removeStyleScriptF, ih h.2]

theorem attrOk_parts {p : String × String} (h : Reducer.attrOk p = true) :
    Reducer.isHandlerAttr p.1 = false ∧
    Reducer.omitAttrs.contains p.1 = false ∧
    (Reducer.isImportantAttr p.1 = true → p.2.length ≤ 70) ∧
    (Reducer.isImportantAttr p.1 = false → p.2.length ≤ 30) := by
  simp only [Reducer.attrOk, Bool.and_eq_true, Bool.not_eq_true'] at h
  refine ⟨h.1.1, h.1.2, ?_, ?_⟩
  · intro hi
    have h2 := h.2
    rw [if_pos hi] at h2
    exact of_decide_eq_true h2
  · intro hi
    have h2 := h.2
    rw [if_neg (by simp [hi])] at h2
    exact of_decide_eq_true h2

theorem map_self {α : Type} {l : List α} {f : α → α}
    (h : ∀ x ∈ l, f x = x) : l.map f = l := by
  induction l with
  | nil => rfl
  | cons x xs ih =>
    simp only [List.map_cons]
    rw [h x (by simp), ih (fun y hy => h y (List.mem_cons_of_mem _ hy))]

theorem removeInlineJsF_id (d : Reducer.HForest)
    (h : Reducer.reducedF d = true) :
    Reducer.removeInlineJsF d = d := by
  induction d using Reducer.removeInlineJsF.induct with
  | case1 => rfl
  | case2 t a ch rest ih1 ih2 =>
    simp only [Reducer.reducedF, Reducer.reducedN, Bool.and_eq_true] at h
    have hall := List.all_eq_true.mp h.1.1.2
    have hfil : a.filter (fun p => !(Reducer.isHandlerAttr p.1)) = a := by
      rw [List.filter_eq_self]
      intro p hp
      simp [(attrOk_parts (hall p hp)).1]
    rw [Reducer.removeInlineJsF, hfil, ih1 h.1.2, ih2 h.2]
  | case3 s rest ih =>
    simp only [Reducer.reducedF, Bool.and_eq_true] at h
    rw [Reducer.removeInlineJsF, ih h.2]
  | case4 c rest ih =>
    simp only [Reducer.reducedF, Bool.and_eq_true] at h
    rw [Reducer.removeInlineJsF, ih h.2]

theorem trimSvgsF_id (d : Reducer.HForest)
    (h : Reducer.reducedF d = true) :
    Reducer.trimSvgsF d = d := by
  induction d using Reducer.trimSvgsF.induct with
  | case1 => rfl
  | case2 a ch rest ih =>
    simp only [Reducer.reducedF, Reducer.reducedN, Bool.and_eq_true,
      Bool.not_eq_true'] at h
    exact absurd h.1.1.1.2 (by simp)
  | case3 t a ch rest hsvg ih1 ih2 =>
    simp only [Reducer.reducedF, Reducer.reducedN, Bool.and_eq_true] at h
    rw [Reducer.trimSvgsF, if_neg hsvg, ih1 h.1.2, ih2 h.2]
  | case4 s rest ih =>
    simp only [Reducer.reducedF, Bool.and_eq_true] at h
    rw [Reducer.trimSvgsF, ih h.2]
  | case5 c rest ih =>
    simp only [Reducer.reducedF, Bool.and_eq_true] at h
    rw [Reducer.trimSvgsF, ih h.2]

theorem trimWhitespaceF_id (d : Reducer.HForest)
    (h : Reducer.reducedF d = true) :
    Reducer.trimWhitespaceF d = d := by
  induction d using Reducer.trimWhitespaceF.induct with
  | case1 => rfl
  | case2 t a ch rest ih1 ih2 =>
    simp only [Reducer.reducedF, Reducer.reducedN, Bool.and_eq_true] at h
    rw [Reducer.trimWhitespaceF, ih1 h.1.2, ih2 h.2]
  | case3 s rest ih =>
    simp only [Reducer.reducedF, Reducer.reducedN, Bool.and_eq_true] at h
    rw [Reducer.trimWhitespaceF, ih h.2, collapseWs_fixed h.1.1]
  | case4 c rest ih =>
    simp only [Reducer.reducedF, Bool.and_eq_true] at h
    rw [Reducer.trimWhitespaceF, ih h.2]

theorem trimHrefsF_id (d : Reducer.HForest)
    (h : Reducer.reducedF d = true) :
    Reducer.trimHrefsF d = d := by
  induction d using Reducer.trimHrefsF.induct with
  | case1 => rfl
  | case2 t a ch rest ih1 ih2 =>
    simp only [Reducer.reducedF, Reducer.reducedN, Bool.and_eq_true] at h
    have hall := List.all_eq_true.mp h.1.1.2
    have hmap : a.map (fun p =>
        if p.1 == "href" && 30 < p.2.length then
          (p.1, String.mk (p.2.data.take 30) ++ "…")
        else p) = a := by
      refine map_self ?_
      intro p hp
      have hap := attrOk_parts (hall p hp)
      by_cases hh : p.1 = "href"
      · have hlen : p.2.length ≤ 30 := hap.2.2.2 (by rw [hh]; rfl)
        simp [hh, Nat.not_lt.mpr hlen]
      · simp [hh]
    simp only [Reducer.trimHrefsF]
    rw [ih1 h.1.2, ih2 h.2]
    by_cases ht : t = "a"
    · rw [if_pos ht, hmap]
    · rw [if_neg ht]
  | case3 s rest ih =>
    simp only [Reducer.reducedF, Bool.and_eq_true] at h
    rw [Reducer.trimHrefsF, ih h.2]
  | case4 c rest ih =>
    simp only [Reducer.reducedF, Bool.and_eq_true] at h
    rw [Reducer.trimHrefsF, ih h.2]

theorem removeOmitAttrsF_id (d : Reducer.HForest)
    (h : Reducer.reducedF d = true) :
    Reducer.removeOmitAttrsF d = d := by
  induction d using Reducer.removeOmitAttrsF.induct with
  | case1 => rfl
  | case2 t a ch rest ih1 ih2 =>
    simp only [Reducer.reducedF, Reducer.reducedN, Bool.and_eq_true] at h
    have hall := List.all_eq_true.mp h.1.1.2
    have hfil : a.filter (fun p => !(Reducer.omitAttrs.contains p.1)) = a := by
      rw [List.filter_eq_self]
      intro p hp
      have hcon := (attrOk_parts (hall p hp)).2.1
      simp only [Bool.not_eq_true']
      exact hcon
    rw [Reducer.removeOmitAttrsF, hfil, ih1 h.1.2, ih2 h.2]
  | case3 s rest ih =>
    simp only [Reducer.reducedF, Bool.and_eq_true] at h
    rw [Reducer.removeOmitAttrsF, ih h.2]
  | case4 c rest ih =>
    simp only [Reducer.reducedF, Bool.and_eq_true] at h
    rw [Reducer.removeOmitAttrsF, ih h.2]

theorem trimCommentsF_id (d : Reducer.HForest)
    (h : Reducer.reducedF d = true) :
    Reducer.trimCommentsF d = d := by
  induction d using Reducer.trimCommentsF.induct with
  | case1 => rfl
  | case2 t a ch rest ih1 ih2 =>
    simp only [Reducer.reducedF, Reducer.reducedN, Bool.and_eq_true] at h
    rw [Reducer.trimCommentsF, ih1 h.1.2, ih2 h.2]
  | case3 s rest ih =>
    simp only [Reducer.reducedF, Bool.and_eq_true] at h
    rw [Reducer.trimCommentsF, ih h.2]
  | case4 c rest ih =>
    simp only [Reducer.reducedF, Reducer.reducedN, Bool.and_eq_true] at h
    have hlen : c.length ≤ 30 := of_decide_eq_true h.1
    simp only [Reducer.trimCommentsF]
    rw [if_neg (Nat.not_lt.mpr hlen), ih h.2]

theorem trimAttrsF_id (d : Reducer.HForest)
    (h : Reducer.reducedF d = true) :
    Reducer.trimAttrsF d = d := by
  induction d using Reducer.trimAttrsF.induct with
  | case1 => rfl
  | case2 t a ch rest ih1 ih2 =>
    simp only [Reducer.reducedF, Reducer.reducedN, Bool.and_eq_true] at h
    have hall := List.all_eq_true.mp h.1.1.2
    have hmap : a.map (fun p =>
        if Reducer.isImportantAttr p.1 then (p.1, Reducer.trimUrl p.2 70)
        else (p.1, Reducer.trimUrl p.2 30)) = a := by
      refine map_self ?_
      intro p hp
      have hap := attrOk_parts (hall p hp)
      obtain ⟨p1, p2⟩ := p
      dsimp only at hap ⊢
      cases hi : Reducer.isImportantAttr p1 with
      | true =>
        have hlen : p2.length ≤ 70 := hap.2.2.1 hi
        simp only [hi, if_true, Reducer.trimUrl]
        rw [if_neg (Nat.not_lt.mpr hlen)]
      | false =>
        have hlen : p2.length ≤ 30 := hap.2.2.2 hi
        simp only [hi, Bool.false_eq_true, if_false, Reducer.trimUrl]
        rw [if_neg (Nat.not_lt.mpr hlen)]
    rw [Reducer.trimAttrsF, hmap, ih1 h.1.2, ih2 h.2]
  | case3 s rest ih =>
    simp only [Reducer.reducedF, Bool.and_eq_true] at h
    rw [Reducer.trimAttrsF, ih h.2]
  | case4 c rest ih =>
    simp only [Reducer.reducedF, Bool.and_eq_true] at h
    rw [Reducer.trimAttrsF, ih h.2]

theorem trimTextNodesF_id (d : Reducer.HForest)
    (h : Reducer.reducedF d = true) :
    Reducer.trimTextNodesF d = d := by
  induction d using Reducer.trimTextNodesF.induct with
  | case1 => rfl
  | case2 t a ch rest ih1 ih2 =>
    simp only [Reducer.reducedF, Reducer.reducedN, Bool.and_eq_true] at h
    rw [Reducer.trimTextNodesF, ih1 h.1.2, ih2 h.2]
  | case3 s rest ih =>
    simp only [Reducer.reducedF, Reducer.reducedN, Bool.and_eq_true] at h
    have hlen : s.length ≤ 100 := of_decide_eq_true h.1.2
    rw [Reducer.trimTextNodesF, ih h.2]
    unfold Reducer.trimText
    rw [if_neg (Nat.not_lt.mpr hlen)]
  | case4 c rest ih =>
    simp only [Reducer.reducedF, Bool.and_eq_true] at h
    rw [Reducer.trimTextNodesF, ih h.2]

/-- **C10** (amended). Reduction is NOT length-idempotent in general (see
the separate counterexample theorem: the truncation marker appended to a
trimmed text node makes it exceed 100 characters again, so a second pass
re-truncates and the output grows). The no-further-shrinkage property
holds exactly on already-reduced documents: on every DOM in reduced form
(no style/script/svg elements, attribute values within the stage
allowances and free of handler/omitted attributes, text nodes
whitespace-collapsed and at most 100 characters, comments at most 30
characters) the whole 9-stage pipeline is the identity, so a second
reduction of such a document changes nothing at all. -/
theorem reduce_noop_on_reduced (d : Reducer.HForest)
    (h : Reducer.reducedF d = true) :
    Reducer.processHtmlDom d = d := by
  unfold Reducer.processHtmlDom
  rw [removeStyleScriptF_id d h, removeInlineJsF_id d h, trimSvgsF_id d h,
    trimWhitespaceF_id d h, trimHrefsF_id d h, removeOmitAttrsF_id d h,
    trimCommentsF_id d h, trimAttrsF_id d h, trimTextNodesF_id d h]

/-- C10 witness: the pipeline no-op applied at the concrete reduced
document `<p class="x">hello</p><!--ok-->`. -/
theorem reduce_noop_on_reduced_witness :
    Reducer.reducedF (Reducer.HForest.cons
      (Reducer.HNode.element "p" [("class", "x")]
        (Reducer.HForest.cons (Reducer.HNode.text "hello")
          Reducer.HForest.nil))
      (Reducer.HForest.cons (Reducer.HNode.comment "ok")
        Reducer.HForest.nil)) = true ∧
    Reducer.processHtmlDom (Reducer.HForest.cons
      (Reducer.HNode.element "p" [("class", "x")]
        (Reducer.HForest.cons (Reducer.HNode.text "hello")
          Reducer.HForest.nil))
      (Reducer.HForest.cons (Reducer.HNode.comment "ok")
        Reducer.HForest.nil)) =
    Reducer.HForest.cons
      (Reducer.HNode.element "p" [("class", "x")]
        (Reducer.HForest.cons (Reducer.HNode.text "hello")
          Reducer.HForest.nil))
      (Reducer.HForest.cons (Reducer.HNode.comment "ok")
        Reducer.HForest.nil) :=
  ⟨by decide, reduce_noop_on_reduced _ (by decide)⟩

set_option maxRecDepth 8000 in
/-- **C10** — counterexample. On `<p>` followed by 101 'a' characters and
`</p>`, the first reduction truncates the text to 100 characters plus
"… [1 chars more]" (116 characters of text, 123 with the tags); that text
again exceeds 100 characters, so the second reduction re-truncates it to
"… [16 chars more]" (117 characters of text, 124 with the tags): the
output length changes, refuting length-idempotence of `reduce`. -/
theorem reduce_not_length_idempotent :
    ¬ ((Reducer.reduceHtml (Reducer.reduceHtml
        ("<p>" ++ String.mk (List.replicate 101 'a') ++ "</p>"))).length =
      (Reducer.reduceHtml
        ("<p>" ++ String.mk (List.replicate 101 'a') ++ "</p>")).length) := by
  have h1 : Reducer.reduceHtml
      ("<p>" ++ String.mk (List.replicate 101 'a') ++ "</p>") =
      "<p>" ++ String.mk (List.replicate 100 'a') ++ "… [1 chars more]</p>" := by
    decide
  have h2 : Reducer.reduceHtml
      ("<p>" ++ String.mk (List.replicate 100 'a') ++ "… [1 chars more]</p>") =
      "<p>" ++ String.mk (List.replicate 100 'a') ++ "… [16 chars more]</p>" := by
    decide
  rw [h1, h2]
  decide
